import Mathlib

/-!
Shallow embedding of the `rust-worker` blocklist build service
(repository `Zachs-Lists`), together with theorems settling the
specification claims about it.

Strings are modelled as lists of characters (`Str`); the Rust code works
on UTF-8 `&str`, and all the constants involved are ASCII, where the two
models agree.  MongoDB stores are modelled as lists of documents, and the
repository operations (`src/rust-worker/src/db/job.rs`) as pure state
transformers on them.
-/

namespace BlocklistWorker

/-- Character-list model of Rust `String` / `&str`. -/
abbrev Str := List Char

/-- Model of `str::to_lowercase` (ASCII-faithful; the code only compares
ASCII domain names and pattern text). -/
def lowerStr (s : Str) : Str := s.map Char.toLower

/-- Model of `str::starts_with` for string prefixes. -/
def startsWith : Str → Str → Bool
  | [], _ => true
  | _ :: _, [] => false
  | p :: ps, c :: cs => p = c && startsWith ps cs

/-- Model of `str::ends_with` for string suffixes. -/
def endsWith (suffix s : Str) : Bool := startsWith suffix.reverse s.reverse

/-- Model of `str::trim` (strip whitespace from both ends). -/
def trimStr (s : Str) : Str :=
  ((s.dropWhile Char.isWhitespace).reverse.dropWhile Char.isWhitespace).reverse

/-- Model of `str::lines`: split on `'\n'`, drop one trailing empty line,
strip a trailing `'\r'` from each line. -/
def linesOf (s : Str) : List Str :=
  let parts := s.splitOn '\n'
  let parts := if parts.getLast? = some [] then parts.dropLast else parts
  parts.map fun l => if l.getLast? = some '\r' then l.dropLast else l

/-- Join a list of strings with a separator (model of `Vec::join`). -/
def joinWith (sep : Str) : List Str → Str
  | [] => []
  | [x] => x
  | x :: xs => x ++ sep ++ joinWith sep xs

/-! ## Job documents and the job repository (`src/rust-worker/src/db/job.rs`) -/

/-- Job status enum (`JobStatus`). -/
inductive JobStatusM where
  | queued | processing | completed | failed | skipped
deriving DecidableEq, Repr

/-- Output file descriptor (`OutputFile`, `src/rust-worker/src/db/progress.rs`). -/
structure OutputFileM where
  name : Str
  format : Str
  sizeBytes : Nat
  domainCount : Nat
deriving DecidableEq, Repr

/-- Job result document (`JobResult`, `src/rust-worker/src/db/progress.rs`). -/
structure JobResultM where
  sourcesProcessed : Nat
  sourcesFailed : Nat
  totalDomains : Nat
  uniqueDomains : Nat
  whitelistedRemoved : Nat
  outputFiles : List OutputFileM
  categories : List (Str × Nat)
  errors : List Str
  skipReason : Option Str
deriving DecidableEq, Repr

/-- `JobResult::failure`. -/
def JobResultM.failure (errors : List Str) : JobResultM :=
  ⟨0, 0, 0, 0, 0, [], [], errors, none⟩

/-- `JobResult::skipped`. -/
def JobResultM.skippedRes (reason : Str) : JobResultM :=
  ⟨0, 0, 0, 0, 0, [], [], [], some reason⟩

/-- Job document (`Job`, `src/rust-worker/src/db/job.rs`): `oid` models the
Mongo `_id`, `jobId` the `job_id` string. -/
structure JobM where
  oid : Nat
  jobId : Str
  username : Str
  priority : Int
  createdAt : Nat
  status : JobStatusM
  workerId : Option Str
  claimedAt : Option Nat
  heartbeatAt : Option Nat
  startedAt : Option Nat
  completedAt : Option Nat
  result : Option JobResultM
deriving DecidableEq, Repr

/-- The `claim_next` filter `status = "queued" AND worker_id = null`. -/
def claimable (j : JobM) : Bool :=
  decide (j.status = JobStatusM.queued ∧ j.workerId = none)

/-- Strict "better" for the `claim_next` sort `priority asc, created_at asc`. -/
def betterKey (a b : JobM) : Bool :=
  decide (a.priority < b.priority ∨ (a.priority = b.priority ∧ a.createdAt < b.createdAt))

/-- Select the matching document `find_one_and_update` operates on: the
claimable document that is minimal for the sort key (earliest wins ties).
Returns its index and the document. -/
def pickMinIdx : List JobM → Option (Nat × JobM)
  | [] => none
  | j :: rest =>
    match pickMinIdx rest with
    | none => if claimable j then some (0, j) else none
    | some (i, b) =>
      if claimable j then
        (if betterKey b j then some (i + 1, b) else some (0, j))
      else some (i + 1, b)

/-- Replace the element at an index (identity when out of range). -/
def updateAt (i : Nat) (f : α → α) : List α → List α
  | [] => []
  | x :: xs =>
    match i with
    | 0 => f x :: xs
    | i + 1 => x :: updateAt i f xs

/-- The `$set` document of `claim_next`. -/
def claimUpdate (w : Str) (now : Nat) (j : JobM) : JobM :=
  { j with status := .processing, workerId := some w,
           claimedAt := some now, heartbeatAt := some now, startedAt := some now }

/-- `JobRepository::claim_next`: one atomic find-and-modify returning the
post-image and the updated store. -/
def claimNext (w : Str) (now : Nat) (s : List JobM) : Option JobM × List JobM :=
  match pickMinIdx s with
  | none => (none, s)
  | some (i, j) => (some (claimUpdate w now j), updateAt i (claimUpdate w now) s)

/-- Apply `f` to the first element satisfying `p` (model of Mongo
`update_one`). -/
def updateFirst (p : α → Bool) (f : α → α) : List α → List α
  | [] => []
  | x :: xs => if p x then f x :: xs else x :: updateFirst p f xs

/-- `JobRepository::heartbeat` filter: `job_id, worker_id = self,
status = "processing"`. -/
def heartbeatFilter (w id : Str) (j : JobM) : Bool :=
  decide (j.jobId = id ∧ j.workerId = some w ∧ j.status = JobStatusM.processing)

/-- `JobRepository::heartbeat` store effect. -/
def heartbeatStore (w id : Str) (now : Nat) (s : List JobM) : List JobM :=
  updateFirst (heartbeatFilter w id) (fun j => { j with heartbeatAt := some now }) s

/-- `JobRepository::complete` store effect: filter `_id` only; set status,
`completed_at` and the result document. -/
def completeStore (oid : Nat) (now : Nat) (r : JobResultM) (s : List JobM) : List JobM :=
  updateFirst (fun j => decide (j.oid = oid))
    (fun j => { j with status := .completed, completedAt := some now, result := some r }) s

/-- `JobRepository::fail` store effect. -/
def failStore (oid : Nat) (now : Nat) (errors : List Str) (s : List JobM) : List JobM :=
  updateFirst (fun j => decide (j.oid = oid))
    (fun j => { j with status := .failed, completedAt := some now,
                       result := some (JobResultM.failure errors) }) s

/-- `JobRepository::skip` store effect. -/
def skipStore (oid : Nat) (now : Nat) (reason : Str) (s : List JobM) : List JobM :=
  updateFirst (fun j => decide (j.oid = oid))
    (fun j => { j with status := .skipped, completedAt := some now,
                       result := some (JobResultM.skippedRes reason) }) s

/-- The `$set` document shared by `release` and `release_all`. -/
def releaseUpdate (j : JobM) : JobM :=
  { j with status := .queued, workerId := none,
           claimedAt := none, heartbeatAt := none, startedAt := none }

/-- `JobRepository::release` store effect: filter `job_id, worker_id = self,
status = "processing"`, one document. -/
def releaseStore (w id : Str) (s : List JobM) : List JobM :=
  updateFirst (heartbeatFilter w id) releaseUpdate s

/-- `JobRepository::release_all` store effect: `update_many` over every job
held by this worker. -/
def releaseAllStore (w : Str) (s : List JobM) : List JobM :=
  s.map fun j =>
    if decide (j.workerId = some w ∧ j.status = JobStatusM.processing)
    then releaseUpdate j else j

/-- One step of the job store under the repository operations, plus job
creation (jobs are created elsewhere in state `queued` with no worker). -/
inductive JobStep : List JobM → List JobM → Prop where
  | enqueue (s : List JobM) (j : JobM) (hq : j.status = .queued) (hw : j.workerId = none) :
      JobStep s (s ++ [j])
  | claim (s : List JobM) (w : Str) (now : Nat) : JobStep s (claimNext w now s).2
  | heartbeat (s : List JobM) (w id : Str) (now : Nat) : JobStep s (heartbeatStore w id now s)
  | complete (s : List JobM) (oid now : Nat) (r : JobResultM) : JobStep s (completeStore oid now r s)
  | fail (s : List JobM) (oid now : Nat) (es : List Str) : JobStep s (failStore oid now es s)
  | skip (s : List JobM) (oid now : Nat) (reason : Str) : JobStep s (skipStore oid now reason s)
  | release (s : List JobM) (w id : Str) : JobStep s (releaseStore w id s)
  | releaseAll (s : List JobM) (w : Str) : JobStep s (releaseAllStore w s)

/-- Reachability of a job-store state from the empty store. -/
def JobReachable (s : List JobM) : Prop :=
  Relation.ReflTransGen JobStep [] s

/-! ### Lemmas about the claim operation -/

theorem getElem?_some_mem {α : Type _} {l : List α} {a : α} :
    ∀ {i : Nat}, l[i]? = some a → a ∈ l := by
  induction l with
  | nil => intro i h; simp at h
  | cons x xs ih =>
    intro i h
    cases i with
    | zero => simp at h; simp [h]
    | succ i => simp at h; exact List.mem_cons_of_mem _ (ih h)

theorem pickMinIdx_of_not_claimable {s : List JobM}
    (h : ∀ j ∈ s, claimable j = false) : pickMinIdx s = none := by
  induction s with
  | nil => rfl
  | cons j rest ih =>
    have hj := h j (by simp)
    have hrest : pickMinIdx rest = none := ih fun x hx => h x (by simp [hx])
    simp [pickMinIdx, hrest, hj]

theorem pickMinIdx_eq_none :
    ∀ {s : List JobM}, pickMinIdx s = none → ∀ j ∈ s, claimable j = false := by
  intro s
  induction s with
  | nil => intro _ j hj; simp at hj
  | cons a rest ih =>
    intro h j hj
    cases hr : pickMinIdx rest with
    | none =>
      cases hca : claimable a with
      | true => simp [pickMinIdx, hr, hca] at h
      | false =>
        rcases List.mem_cons.mp hj with h1 | h1
        · subst h1; exact hca
        · exact ih hr j h1
    | some ib =>
      obtain ⟨i, b⟩ := ib
      cases hca : claimable a with
      | true =>
        cases hb : betterKey b a with
        | true => simp [pickMinIdx, hr, hca, hb] at h
        | false => simp [pickMinIdx, hr, hca, hb] at h
      | false => simp [pickMinIdx, hr, hca] at h

theorem pickMinIdx_get {s : List JobM} {i : Nat} {j : JobM}
    (h : pickMinIdx s = some (i, j)) : s[i]? = some j ∧ claimable j = true := by
  induction s generalizing i j with
  | nil => simp [pickMinIdx] at h
  | cons a rest ih =>
    cases hr : pickMinIdx rest with
    | none =>
      cases ha : claimable a with
      | true =>
        simp [pickMinIdx, hr, ha] at h
        obtain ⟨hi, hj⟩ := h
        subst hi; subst hj
        exact ⟨by simp, ha⟩
      | false => simp [pickMinIdx, hr, ha] at h
    | some ib =>
      obtain ⟨i', b⟩ := ib
      cases ha : claimable a with
      | true =>
        cases hb : betterKey b a with
        | true =>
          simp [pickMinIdx, hr, ha, hb] at h
          obtain ⟨hi, hj⟩ := h
          subst hi; subst hj
          have := ih hr
          exact ⟨by simpa using this.1, this.2⟩
        | false =>
          simp [pickMinIdx, hr, ha, hb] at h
          obtain ⟨hi, hj⟩ := h
          subst hi; subst hj
          exact ⟨by simp, ha⟩
      | false =>
        simp [pickMinIdx, hr, ha] at h
        obtain ⟨hi, hj⟩ := h
        subst hi; subst hj
        have := ih hr
        exact ⟨by simpa using this.1, this.2⟩

theorem countP_updateAt {p : JobM → Bool} {f : JobM → JobM}
    (hf : ∀ x, p (f x) = false) :
    ∀ (l : List JobM) (i : Nat) (j : JobM), l[i]? = some j → p j = true →
      (updateAt i f l).countP p = l.countP p - 1 := by
  intro l
  induction l with
  | nil => intro i j h; simp at h
  | cons x xs ih =>
    intro i j hget hp
    cases i with
    | zero =>
      simp at hget
      subst hget
      simp [updateAt, List.countP_cons, hf, hp]
    | succ i =>
      simp at hget
      have := ih i j hget hp
      have hpos : 0 < xs.countP p :=
        List.countP_pos_iff.mpr ⟨j, getElem?_some_mem hget, hp⟩
      simp [updateAt, List.countP_cons, this]
      omega

theorem claimable_claimUpdate (w : Str) (now : Nat) (j : JobM) :
    claimable (claimUpdate w now j) = false := by
  simp [claimable, claimUpdate]

theorem claimNext_of_pickMinIdx_none {s : List JobM} {w : Str} {now : Nat}
    (h : pickMinIdx s = none) : claimNext w now s = (none, s) := by
  unfold claimNext; rw [h]

/-- Claim C1 (supporting form): claiming from a store with exactly one
matching job yields that job updated, and leaves a store with no matching
job. -/
theorem claimNext_exhausts {s : List JobM} {w : Str} {now : Nat}
    (h : s.countP claimable = 1) :
    (∃ j, (claimNext w now s).1 = some (claimUpdate w now j)) ∧
      ((claimNext w now s).2).countP claimable = 0 := by
  cases hpick : pickMinIdx s with
  | none =>
    exfalso
    have hall := pickMinIdx_eq_none hpick
    have : s.countP claimable = 0 :=
      List.countP_eq_zero.mpr fun a ha => by simp [hall a ha]
    omega
  | some ij =>
    obtain ⟨i, j⟩ := ij
    obtain ⟨hget, hclaim⟩ := pickMinIdx_get hpick
    constructor
    · exact ⟨j, by simp [claimNext, hpick]⟩
    · have := countP_updateAt (claimable_claimUpdate w now) s i j hget hclaim
      simp [claimNext, hpick, this, h]

/-- Claim C1: two workers claiming against a store holding exactly one
matching job (`status = queued`, `worker_id = null`): the first receives the
job with `status = processing`, `worker_id` set to itself and the
claim/heartbeat/start stamps set, and the second receives nothing
(`claim_next` is a single atomic find-and-modify, so any interleaving of the
two calls is one of the two sequential orders, both covered by the
quantifiers). -/
theorem claim_next_single_winner (s : List JobM) (w1 w2 : Str) (t1 t2 : Nat)
    (h : s.countP claimable = 1) :
    (∃ j, (claimNext w1 t1 s).1 = some j ∧ j.status = .processing ∧
      j.workerId = some w1 ∧ j.claimedAt = some t1 ∧ j.heartbeatAt = some t1 ∧
      j.startedAt = some t1) ∧
    (claimNext w2 t2 (claimNext w1 t1 s).2).1 = none := by
  obtain ⟨⟨j, hj⟩, hzero⟩ := @claimNext_exhausts s w1 t1 h
  constructor
  · exact ⟨claimUpdate w1 t1 j, hj, rfl, rfl, rfl, rfl, rfl⟩
  · have hnone : pickMinIdx (claimNext w1 t1 s).2 = none := by
      apply pickMinIdx_of_not_claimable
      intro x hx
      by_contra hc
      have : claimable x = true := by revert hc; cases claimable x <;> simp
      have := List.countP_pos_iff.mpr ⟨x, hx, this⟩
      omega
    rw [claimNext_of_pickMinIdx_none hnone]

/-- Concrete queued job used by witnesses. -/
def witJob : JobM :=
  ⟨0, ['j', '1'], ['u'], 0, 0, .queued, none, none, none, none, none, none⟩

/-- Witness for C1 at a one-job store. -/
theorem claim_next_single_winner_witness :
    ([witJob].countP claimable = 1) ∧
    ((∃ j, (claimNext ['a'] 1 [witJob]).1 = some j ∧ j.status = .processing ∧
      j.workerId = some ['a'] ∧ j.claimedAt = some 1 ∧ j.heartbeatAt = some 1 ∧
      j.startedAt = some 1) ∧
    (claimNext ['b'] 2 (claimNext ['a'] 1 [witJob]).2).1 = none) :=
  ⟨by decide, claim_next_single_winner [witJob] ['a'] ['b'] 1 2 (by decide)⟩

/-! ### Claim C2: the processing/worker-id invariant -/

theorem mem_updateFirst {p : α → Bool} {f : α → α} {l : List α} {y : α}
    (hy : y ∈ updateFirst p f l) : y ∈ l ∨ ∃ x ∈ l, p x = true ∧ y = f x := by
  induction l with
  | nil => simp [updateFirst] at hy
  | cons a rest ih =>
    simp only [updateFirst] at hy
    by_cases hp : p a = true
    · rw [if_pos hp] at hy
      rcases List.mem_cons.mp hy with h | h
      · exact Or.inr ⟨a, by simp, hp, h⟩
      · exact Or.inl (by simp [h])
    · rw [if_neg (by simp [hp])] at hy
      rcases List.mem_cons.mp hy with h | h
      · exact Or.inl (by simp [h])
      · rcases ih h with h1 | ⟨x, hx, hpx, hyx⟩
        · exact Or.inl (by simp [h1])
        · exact Or.inr ⟨x, by simp [hx], hpx, hyx⟩

theorem mem_updateAt {f : α → α} {l : List α} {y : α} :
    ∀ {i : Nat}, y ∈ updateAt i f l → y ∈ l ∨ ∃ x ∈ l, y = f x := by
  induction l with
  | nil => intro i hy; simp [updateAt] at hy
  | cons a rest ih =>
    intro i hy
    cases i with
    | zero =>
      rcases List.mem_cons.mp hy with h | h
      · exact Or.inr ⟨a, by simp, h⟩
      · exact Or.inl (by simp [h])
    | succ i =>
      rcases List.mem_cons.mp hy with h | h
      · exact Or.inl (by simp [h])
      · rcases ih h with h1 | ⟨x, hx, hyx⟩
        · exact Or.inl (by simp [h1])
        · exact Or.inr ⟨x, by simp [hx], hyx⟩

/-- The forward invariant: every processing job has a (single, non-null)
worker id. -/
def ProcessingOwned (s : List JobM) : Prop :=
  ∀ j ∈ s, j.status = JobStatusM.processing → j.workerId ≠ none

theorem jobStep_preserves_processingOwned {s s' : List JobM}
    (hstep : JobStep s s') (hinv : ProcessingOwned s) : ProcessingOwned s' := by
  cases hstep with
  | enqueue j hq hw =>
    intro y hy hproc
    rcases List.mem_append.mp hy with h | h
    · exact hinv y h hproc
    · simp at h
      subst h
      rw [hq] at hproc
      cases hproc
  | claim w now =>
    intro y hy hproc
    unfold claimNext at hy
    cases hpick : pickMinIdx s with
    | none => rw [hpick] at hy; exact hinv y hy hproc
    | some ij =>
      rw [hpick] at hy
      rcases mem_updateAt hy with h | ⟨x, _, hyx⟩
      · exact hinv y h hproc
      · subst hyx; simp [claimUpdate]
  | heartbeat w id now =>
    intro y hy hproc
    rcases mem_updateFirst hy with h | ⟨x, hx, hpx, hyx⟩
    · exact hinv y h hproc
    · subst hyx
      exact hinv x hx hproc
  | complete oid now r =>
    intro y hy hproc
    rcases mem_updateFirst hy with h | ⟨x, _, _, hyx⟩
    · exact hinv y h hproc
    · subst hyx; simp at hproc
  | fail oid now es =>
    intro y hy hproc
    rcases mem_updateFirst hy with h | ⟨x, _, _, hyx⟩
    · exact hinv y h hproc
    · subst hyx; simp at hproc
  | skip oid now reason =>
    intro y hy hproc
    rcases mem_updateFirst hy with h | ⟨x, _, _, hyx⟩
    · exact hinv y h hproc
    · subst hyx; simp at hproc
  | release w id =>
    intro y hy hproc
    rcases mem_updateFirst hy with h | ⟨x, _, _, hyx⟩
    · exact hinv y h hproc
    · subst hyx; simp [releaseUpdate] at hproc
  | releaseAll w =>
    intro y hy hproc
    rcases List.mem_map.mp hy with ⟨x, hx, hyx⟩
    by_cases hc : (x.workerId = some w ∧ x.status = JobStatusM.processing)
    · rw [if_pos (by simpa using hc)] at hyx
      subst hyx
      simp [releaseUpdate] at hproc
    · rw [if_neg (by simpa using hc)] at hyx
      subst hyx
      exact hinv x hx hproc

/-- Claim C2, amended: at every reachable state of the job store, every job
with `status = processing` has a non-null `worker_id`.  (The converse of the
original claim fails: `complete`, `fail` and `skip` do not clear
`worker_id`, see `completed_job_keeps_worker_id`.) -/
theorem processing_job_has_worker (s : List JobM) (h : JobReachable s) :
    ∀ j ∈ s, j.status = JobStatusM.processing → j.workerId ≠ none := by
  induction h with
  | refl => intro j hj; simp at hj
  | tail _ hstep ih => exact jobStep_preserves_processingOwned hstep ih

/-- The reachable store used to refute the converse direction of C2:
enqueue one job, claim it, complete it. -/
def cexStore : List JobM :=
  completeStore 0 2 (JobResultM.failure []) (claimNext ['w'] 1 [witJob]).2

/-- Claim C2, counterexample: a reachable job store (enqueue, claim,
complete) holding a job whose `worker_id` is non-null while its status is
`completed`, not `processing` — `complete` sets the terminal status without
clearing `worker_id`. -/
theorem completed_job_keeps_worker_id :
    JobReachable cexStore ∧
      ∃ j ∈ cexStore, j.workerId ≠ none ∧ j.status ≠ JobStatusM.processing := by
  constructor
  · exact Relation.ReflTransGen.tail
      (Relation.ReflTransGen.tail
        (Relation.ReflTransGen.tail Relation.ReflTransGen.refl
          (JobStep.enqueue [] witJob rfl rfl))
        (JobStep.claim [witJob] ['w'] 1))
      (JobStep.complete (claimNext ['w'] 1 [witJob]).2 0 2 (JobResultM.failure []))
  · decide

/-- Witness for the amended C2 at the concrete reachable store. -/
theorem processing_job_has_worker_witness :
    JobReachable ((claimNext ['w'] 1 [witJob]).2) ∧
      ∀ j ∈ (claimNext ['w'] 1 [witJob]).2,
        j.status = JobStatusM.processing → j.workerId ≠ none := by
  have hreach : JobReachable ((claimNext ['w'] 1 [witJob]).2) :=
    Relation.ReflTransGen.tail
      (Relation.ReflTransGen.tail Relation.ReflTransGen.refl
        (JobStep.enqueue [] witJob rfl rfl))
      (JobStep.claim [witJob] ['w'] 1)
  exact ⟨hreach, processing_job_has_worker _ hreach⟩

/-! ## A small regex engine

Model of the subset of the external `regex` crate used by the worker:
parsing can fail (invalid patterns such as an unclosed group), matching is
unanchored search with optional leading `^` / trailing `$` anchors, `.`
matches any character except `'\n'`, classes, escapes, alternation and the
`*`/`+`/`?` repetitions are supported.  Patterns outside this subset are
treated as invalid. -/

/-- Regex abstract syntax. -/
inductive Rx where
  | emp
  | eps
  | anyc
  | lit (c : Char)
  | cls (neg : Bool) (ranges : List (Char × Char))
  | alt (a b : Rx)
  | seq (a b : Rx)
  | star (a : Rx)
deriving DecidableEq, Repr

/-- Nullability (acceptance of the empty string). -/
def Rx.nullable : Rx → Bool
  | .emp => false
  | .eps => true
  | .anyc => false
  | .lit _ => false
  | .cls _ _ => false
  | .alt a b => a.nullable || b.nullable
  | .seq a b => a.nullable && b.nullable
  | .star _ => true

/-- Character-range membership for classes. -/
def charInRanges (rs : List (Char × Char)) (c : Char) : Bool :=
  rs.any fun p => decide (p.1 ≤ c ∧ c ≤ p.2)

/-- Class match (a negated class still matches `'\n'`, as in the crate). -/
def clsHit (neg : Bool) (rs : List (Char × Char)) (c : Char) : Bool :=
  if neg then !(charInRanges rs c) else charInRanges rs c

/-- Brzozowski derivative. -/
def Rx.deriv : Rx → Char → Rx
  | .emp, _ => .emp
  | .eps, _ => .emp
  | .anyc, c => if c = '\n' then .emp else .eps
  | .lit d, c => if c = d then .eps else .emp
  | .cls neg rs, c => if clsHit neg rs c then .eps else .emp
  | .alt a b, c => .alt (a.deriv c) (b.deriv c)
  | .seq a b, c =>
    if a.nullable then .alt (.seq (a.deriv c) b) (b.deriv c)
    else .seq (a.deriv c) b
  | .star a, c => .seq (a.deriv c) (.star a)

/-- Whole-string match via derivatives. -/
def matchFull (r : Rx) (s : Str) : Bool :=
  (s.foldl Rx.deriv r).nullable

/-- Some prefix of `s` matches `r`. -/
def matchesSomeTake (r : Rx) (s : Str) : Bool :=
  (List.range (s.length + 1)).any fun k => matchFull r (s.take k)

/-- Compiled pattern: start/end anchoring flags plus the inner regex. -/
structure CompiledRx where
  aS : Bool
  aE : Bool
  rx : Rx
deriving DecidableEq, Repr

/-- Unanchored-search semantics of `Regex::is_match`. -/
def rxMatches (cr : CompiledRx) (s : Str) : Bool :=
  match cr.aS, cr.aE with
  | true, true => matchFull cr.rx s
  | true, false => matchesSomeTake cr.rx s
  | false, true => (List.range (s.length + 1)).any fun k => matchFull cr.rx (s.drop k)
  | false, false => (List.range (s.length + 1)).any fun k => matchesSomeTake cr.rx (s.drop k)

/-- `\s` as ASCII ranges. -/
def wsRanges : List (Char × Char) :=
  [('\t', '\t'), ('\n', '\n'), (Char.ofNat 11, Char.ofNat 12), ('\r', '\r'), (' ', ' ')]

/-- `\d`. -/
def digitRanges : List (Char × Char) := [('0', '9')]

/-- `\w`. -/
def wordRanges : List (Char × Char) := [('0', '9'), ('A', 'Z'), ('_', '_'), ('a', 'z')]

/-- Escaped atoms (`\n`, `\s`, escaped punctuation, ...). -/
def escAtom (c : Char) : Option Rx :=
  if c = 'n' then some (.lit '\n')
  else if c = 't' then some (.lit '\t')
  else if c = 'r' then some (.lit '\r')
  else if c = 's' then some (.cls false wsRanges)
  else if c = 'S' then some (.cls true wsRanges)
  else if c = 'd' then some (.cls false digitRanges)
  else if c = 'D' then some (.cls true digitRanges)
  else if c = 'w' then some (.cls false wordRanges)
  else if c = 'W' then some (.cls true wordRanges)
  else if ¬ c.isAlphanum then some (.lit c)
  else none

/-- Escapes usable inside a character class. -/
def escClsRanges (c : Char) : Option (List (Char × Char)) :=
  if c = 'n' then some [('\n', '\n')]
  else if c = 't' then some [('\t', '\t')]
  else if c = 'r' then some [('\r', '\r')]
  else if c = 's' then some wsRanges
  else if c = 'd' then some digitRanges
  else if c = 'w' then some wordRanges
  else if ¬ c.isAlphanum then some [(c, c)]
  else none

/-- Items of a character class, up to the closing `]`. -/
def clsItems : Nat → Str → Option (List (Char × Char) × Str)
  | 0, _ => none
  | _ + 1, [] => none
  | _ + 1, ']' :: rest => some ([], rest)
  | fuel + 1, '\\' :: c :: rest =>
    match escClsRanges c with
    | none => none
    | some rs =>
      match clsItems fuel rest with
      | some (rs2, rest2) => some (rs ++ rs2, rest2)
      | none => none
  | fuel + 1, c :: '-' :: d :: rest =>
    if d = ']' then some ([(c, c), ('-', '-')], rest)
    else
      match clsItems fuel rest with
      | some (rs, rest2) => some ((c, d) :: rs, rest2)
      | none => none
  | fuel + 1, c :: rest =>
    match clsItems fuel rest with
    | some (rs, rest2) => some ((c, c) :: rs, rest2)
    | none => none

/-- Parse a character class (input starts after the `[`). -/
def parseCls (fuel : Nat) (s : Str) : Option (Rx × Str) :=
  let (neg, s1) := match s with
    | '^' :: r => (true, r)
    | _ => (false, s)
  match clsItems fuel s1 with
  | some ([], _) => none
  | some (rs, rest) => some (.cls neg rs, rest)
  | none => none

/-- Postfix repetition operators. -/
def applyPostOps : Rx → Str → Rx × Str
  | r, '*' :: rest => applyPostOps (.star r) rest
  | r, '+' :: rest => applyPostOps (.seq r (.star r)) rest
  | r, '?' :: rest => applyPostOps (.alt r .eps) rest
  | r, rest => (r, rest)

mutual

/-- Alternation level of the pattern grammar. -/
def parseAlt : Nat → Str → Option (Rx × Str)
  | 0, _ => none
  | fuel + 1, s =>
    match parseCat fuel s with
    | none => none
    | some (r, rest) =>
      match rest with
      | '|' :: rest' =>
        match parseAlt fuel rest' with
        | some (r2, rest2) => some (.alt r r2, rest2)
        | none => none
      | _ => some (r, rest)

/-- Concatenation level: zero or more repeated atoms. -/
def parseCat : Nat → Str → Option (Rx × Str)
  | 0, _ => none
  | fuel + 1, s =>
    match parseRep fuel s with
    | none => some (.eps, s)
    | some (r, rest) =>
      match parseCat fuel rest with
      | some (r2, rest2) => some (.seq r r2, rest2)
      | none => none

/-- One atom with its postfix operators. -/
def parseRep : Nat → Str → Option (Rx × Str)
  | 0, _ => none
  | fuel + 1, s =>
    match parseAtom fuel s with
    | none => none
    | some (r, rest) => some (applyPostOps r rest)

/-- A single atom: group, class, dot, escape or literal. -/
def parseAtom : Nat → Str → Option (Rx × Str)
  | 0, _ => none
  | fuel + 1, s =>
    match s with
    | [] => none
    | '(' :: rest =>
      match (match rest with
             | '?' :: ':' :: r2 => some r2
             | '?' :: _ => none
             | _ => some rest) with
      | none => none
      | some body =>
        match parseAlt fuel body with
        | some (r, ')' :: rest2) => some (r, rest2)
        | _ => none
    | '[' :: rest => parseCls fuel rest
    | '.' :: rest => some (.anyc, rest)
    | '\\' :: c :: rest => (escAtom c).map fun r => (r, rest)
    | ['\\'] => none
    | c :: rest =>
      if c ∈ ['|', ')', '*', '+', '?', ']', '{', '}', '^', '$'] then none
      else some (.lit c, rest)

end

/-- Parse a pattern string: leading `^` and trailing `$` become anchors; a
pattern outside the supported subset yields `none` (compile failure). -/
def parseRegexStr (s : Str) : Option CompiledRx :=
  let (anchS, s1) := match s with
    | '^' :: r => (true, r)
    | _ => (false, s)
  match parseAlt (2 * s.length + 8) s1 with
  | none => none
  | some (r, rest) =>
    if rest = [] then some ⟨anchS, false, r⟩
    else if rest = ['$'] then some ⟨anchS, true, r⟩
    else none

/-! ## Whitelist manager (`src/rust-worker/src/whitelist.rs`) -/

/-- `PatternType`. -/
inductive PatternTypeM where
  | exact | wildcard | regex | subdomain
deriving DecidableEq, Repr

/-- `Display for PatternType`. -/
def patternTypeStr : PatternTypeM → Str
  | .exact => ['e', 'x', 'a', 'c', 't']
  | .wildcard => ['w', 'i', 'l', 'd', 'c', 'a', 'r', 'd']
  | .regex => ['r', 'e', 'g', 'e', 'x']
  | .subdomain => ['s', 'u', 'b', 'd', 'o', 'm', 'a', 'i', 'n']

/-- `PatternInfo`. -/
structure PatternInfoM where
  original : Str
  ptype : PatternTypeM
deriving DecidableEq, Repr

/-- Comment-stripping and trimming applied to a whitelist line in
`from_content`: trim, cut at the first `#`, trim again. -/
def patternOfLine (line : Str) : Str :=
  trimStr ((trimStr line).takeWhile fun c => c ≠ '#')

/-- The `if`-chain of `from_content` classifying one non-empty pattern. -/
def classifyPattern (p : Str) : Option (Str × PatternTypeM) :=
  if p = [] then none
  else if p.head? = some '/' ∧ p.getLast? = some '/' ∧ 2 < p.length then some (p, .regex)
  else if startsWith ['@', '@'] p then some (p, .subdomain)
  else if p.contains '*' then some (p, .wildcard)
  else some (p, .exact)

/-- All classified patterns of a whitelist text, in line order. -/
def classified (content : Str) : List (Str × PatternTypeM) :=
  (linesOf content).filterMap fun l => classifyPattern (patternOfLine l)

/-- `str::trim_start_matches("@@")` (strips the prefix repeatedly). -/
def stripAts : Str → Str
  | '@' :: '@' :: rest => stripAts rest
  | s => s

/-- The `regex::escape` metacharacter set. -/
def isRxMeta (c : Char) : Bool :=
  c ∈ ['\\', '.', '+', '*', '?', '(', ')', '|', '[', ']', '{', '}', '^', '$', '#', '&', '-', '~']

/-- Model of `regex::escape`. -/
def regexEscape (s : Str) : Str :=
  (s.map fun c => if isRxMeta c then ['\\', c] else [c]).flatten

/-- `.replace(r"\*", ".*")`: leftmost non-overlapping replacement. -/
def replaceEscStar : Str → Str
  | '\\' :: '*' :: rest => '.' :: '*' :: replaceEscStar rest
  | c :: rest => c :: replaceEscStar rest
  | [] => []

/-- The regex string a wildcard pattern is compiled to:
`format!("^{}$", regex::escape(pattern).replace(r"\*", ".*"))`. -/
def wildcardToRegexStr (p : Str) : Str :=
  '^' :: (replaceEscStar (regexEscape p) ++ ['$'])

/-- The `regex_strings` vector accumulated by `from_content` (regex bodies
and translated wildcards, in line order). -/
def regexStringsOf (content : Str) : List Str :=
  (classified content).filterMap fun pt =>
    match pt.2 with
    | .regex => some (pt.1.drop 1).dropLast
    | .wildcard => some (wildcardToRegexStr pt.1)
    | _ => none

/-- The `regex_pattern_strings` vector (original text of regex/wildcard
patterns). -/
def regexPatternStringsOf (content : Str) : List Str :=
  (classified content).filterMap fun pt =>
    match pt.2 with
    | .regex => some pt.1
    | .wildcard => some pt.1
    | _ => none

/-- `HashSet::insert` modelled on lists (first copy wins, order preserved). -/
def insertDedup (l : List Str) (x : Str) : List Str :=
  if l.contains x then l else l ++ [x]

/-- The `exact_patterns` set. -/
def exactPatternsOf (content : Str) : List Str :=
  (classified content).foldl
    (fun acc pt => if pt.2 = PatternTypeM.exact then insertDedup acc (lowerStr pt.1) else acc) []

/-- The `subdomain_patterns` vector of `(domain, ".domain")` pairs. -/
def subdomainPatternsOf (content : Str) : List (Str × Str) :=
  (classified content).filterMap fun pt =>
    match pt.2 with
    | .subdomain =>
      let d := lowerStr (stripAts pt.1)
      some (d, '.' :: d)
    | _ => none

/-- The `all_patterns` vector. -/
def allPatternsOf (content : Str) : List PatternInfoM :=
  (classified content).map fun pt => ⟨pt.1, pt.2⟩

/-- All-or-nothing compilation (model of `RegexSet::new`: it fails when any
member pattern fails). -/
def optMapAll (f : α → Option β) : List α → Option (List β)
  | [] => some []
  | a :: l =>
    match f a with
    | none => none
    | some b =>
      match optMapAll f l with
      | none => none
      | some bs => some (b :: bs)

/-- Build the `RegexSet` field: `None` when there are no regex strings, or
when the set fails to compile (then the error is logged and the whole set
dropped). -/
def buildRegexSet (strs : List Str) : Option (List CompiledRx) :=
  if strs.isEmpty then none
  else
    match optMapAll parseRegexStr strs with
    | some rs => some rs
    | none => none

/-- `WhitelistManager`. -/
structure WhitelistManager where
  exactPatterns : List Str
  subdomainPatterns : List (Str × Str)
  regexSet : Option (List CompiledRx)
  allPatterns : List PatternInfoM
  regexPatternStrings : List Str
deriving DecidableEq, Repr

/-- `WhitelistManager::from_content`. -/
def fromContent (content : Str) : WhitelistManager :=
  ⟨exactPatternsOf content, subdomainPatternsOf content,
   buildRegexSet (regexStringsOf content), allPatternsOf content,
   regexPatternStringsOf content⟩

/-- `WhitelistManager::is_whitelisted`: exact set, then subdomain pairs,
then the batch regex set. -/
def isWhitelisted (m : WhitelistManager) (d : Str) : Bool :=
  m.exactPatterns.contains d ||
  m.subdomainPatterns.any (fun p => decide (d = p.1) || endsWith p.2 d) ||
  (match m.regexSet with
   | some rs => rs.any fun r => rxMatches r d
   | none => false)

/-- `WhitelistManager::matches_pattern` (per-pattern re-match used for the
statistics; compiles the single pattern on the fly, failures match
nothing). -/
def matchesPattern (p : PatternInfoM) (d : Str) : Bool :=
  match p.ptype with
  | .exact => decide (lowerStr p.original = d)
  | .subdomain =>
    let suffix := lowerStr (stripAts p.original)
    decide (d = suffix) || endsWith ('.' :: suffix) d
  | .wildcard =>
    match parseRegexStr (wildcardToRegexStr p.original) with
    | some r => rxMatches r d
    | none => false
  | .regex =>
    match parseRegexStr ((p.original.drop 1).dropLast) with
    | some r => rxMatches r d
    | none => false

/-- `WhitelistPatternMatch` (`src/rust-worker/src/db/progress.rs`). -/
structure WhitelistPatternMatchM where
  pattern : Str
  patternType : Str
  matchCount : Nat
  samples : List Str
deriving DecidableEq, Repr

/-- Stable insertion sort (model of the stable `slice::sort_by`). -/
def insertSorted (le : α → α → Bool) (x : α) : List α → List α
  | [] => [x]
  | y :: ys => if le x y then x :: y :: ys else y :: insertSorted le x ys

/-- Stable sort by a boolean `≤`. -/
def isort (le : α → α → Bool) (l : List α) : List α :=
  l.foldr (insertSorted le) []

/-- Per-pattern statistics over the removed set: one entry per distinct
pattern text with a positive count (first occurrence wins, as with
`HashMap::entry(..).or_insert`), sorted descending by count, top 20. -/
def patternStats (ps : List PatternInfoM) (removed : Finset Str) : List WhitelistPatternMatchM :=
  let entries := ps.foldl
    (fun (acc : List WhitelistPatternMatchM) p =>
      let c := (removed.filter fun d => matchesPattern p d = true).card
      if 0 < c ∧ ¬ acc.any (fun e => e.pattern = p.original) then
        acc ++ [⟨p.original, patternTypeStr p.ptype, c, []⟩]
      else acc) []
  (isort (fun a b => decide (b.matchCount ≤ a.matchCount)) entries).take 20

/-- `WhitelistManager::filter_domains`: partition the input set by
`is_whitelisted`, returning the remaining set, the removed count and the
pattern statistics (early return when there are no patterns). -/
def filterDomains (m : WhitelistManager) (domains : Finset Str) :
    Finset Str × Nat × List WhitelistPatternMatchM :=
  if m.allPatterns = [] then (domains, 0, [])
  else
    let remaining := domains.filter fun d => isWhitelisted m d = false
    let removed := domains.filter fun d => isWhitelisted m d = true
    (remaining, removed.card, patternStats m.allPatterns removed)

/-- String-literal helper for concrete inputs. -/
def str (s : String) : Str := s.data

/-! ### Claim C3: the filter partitions its input -/

theorem classified_eq_nil {content : Str} (h : allPatternsOf content = []) :
    classified content = [] := by
  unfold allPatternsOf at h
  exact List.map_eq_nil_iff.mp h

theorem isWhitelisted_of_no_patterns {content : Str}
    (h : allPatternsOf content = []) (d : Str) :
    isWhitelisted (fromContent content) d = false := by
  have hc := classified_eq_nil h
  unfold isWhitelisted fromContent exactPatternsOf subdomainPatternsOf
    buildRegexSet regexStringsOf
  rw [hc]
  simp

/-- Claim C3: for every whitelist text and every finite domain set `X`,
`filter_domains` returns a pair whose kept set and removed set
(`{d ∈ X | is_whitelisted d}`) partition `X`: their union is `X`, they are
disjoint, the returned count is the number of removed domains, and the kept
set is exactly the non-whitelisted part of `X`. -/
theorem filter_domains_partition (content : Str) (X : Finset Str) :
    (filterDomains (fromContent content) X).1 ∪
        (X.filter fun d => isWhitelisted (fromContent content) d = true) = X ∧
    (filterDomains (fromContent content) X).1 ∩
        (X.filter fun d => isWhitelisted (fromContent content) d = true) = ∅ ∧
    (filterDomains (fromContent content) X).2.1 =
        (X.filter fun d => isWhitelisted (fromContent content) d = true).card ∧
    (filterDomains (fromContent content) X).1 =
        (X.filter fun d => isWhitelisted (fromContent content) d = false) := by
  by_cases hp : (fromContent content).allPatterns = []
  · have hW : ∀ d, isWhitelisted (fromContent content) d = false :=
      isWhitelisted_of_no_patterns (by simpa [fromContent] using hp)
    have hfd : filterDomains (fromContent content) X = (X, 0, []) := by
      unfold filterDomains; rw [if_pos hp]
    rw [hfd]
    refine ⟨?_, ?_, ?_, ?_⟩
    · ext d; simp [hW d]
    · ext d; simp [hW d]
    · have : (X.filter fun d => isWhitelisted (fromContent content) d = true) = ∅ := by
        ext d; simp [hW d]
      simp [this]
    · ext d; simp [hW d]
  · have hfd : filterDomains (fromContent content) X =
        ((X.filter fun d => isWhitelisted (fromContent content) d = false),
         (X.filter fun d => isWhitelisted (fromContent content) d = true).card,
         patternStats (fromContent content).allPatterns
           (X.filter fun d => isWhitelisted (fromContent content) d = true)) := by
      unfold filterDomains; rw [if_neg hp]
    rw [hfd]
    refine ⟨?_, ?_, rfl, rfl⟩
    · ext d
      by_cases h : isWhitelisted (fromContent content) d = true <;>
        simp [h, Finset.mem_union, Finset.mem_filter]
    · ext d
      by_cases h : isWhitelisted (fromContent content) d = true <;>
        simp [h, Finset.mem_inter, Finset.mem_filter]

/-! ### Claim C4: an invalid regex pattern in the whitelist -/

theorem optMapAll_eq_none_of_mem {f : α → Option β} {l : List α} {x : α}
    (hx : x ∈ l) (hf : f x = none) : optMapAll f l = none := by
  induction l with
  | nil => simp at hx
  | cons a rest ih =>
    rcases List.mem_cons.mp hx with h | h
    · subst h; simp [optMapAll, hf]
    · unfold optMapAll
      cases hfa : f a with
      | none => rfl
      | some b => simp [ih h]

theorem buildRegexSet_eq_none {strs : List Str} {x : Str}
    (hx : x ∈ strs) (hf : parseRegexStr x = none) : buildRegexSet strs = none := by
  unfold buildRegexSet
  have hne : strs.isEmpty = false := by
    cases strs
    · simp at hx
    · rfl
  simp [hne, optMapAll_eq_none_of_mem hx hf]

/-- Claim C4, counterexample: a whitelist whose only patterns are the
invalid regex `/(/` and the wildcard `*.foo.com`.  With the invalid pattern
present the wildcard stops matching (`RegexSet::new` fails and the whole
regex set is dropped), whereas without the invalid pattern it matches — so
dropping is not limited to the offending pattern. -/
theorem invalid_regex_drops_other_patterns :
    isWhitelisted (fromContent (str "/(/\n*.foo.com")) (str "sub.foo.com") = false ∧
    isWhitelisted (fromContent (str "*.foo.com")) (str "sub.foo.com") = true := by
  constructor
  · decide
  · decide

/-- Claim C4, amended: when any accumulated regex string (a `/pat/` body or
a translated wildcard) fails to compile, the whole combined regex set is
`None`: `is_whitelisted` then tests only the exact set and the subdomain
pairs, so every wildcard and regex pattern stops matching while exact and
subdomain patterns are unaffected; processing continues without error. -/
theorem whitelist_invalid_regex_fallback (content d : Str)
    (h : ∃ p ∈ regexStringsOf content, parseRegexStr p = none) :
    (fromContent content).regexSet = none ∧
    isWhitelisted (fromContent content) d =
      ((fromContent content).exactPatterns.contains d ||
       (fromContent content).subdomainPatterns.any fun p =>
         decide (d = p.1) || endsWith p.2 d) := by
  obtain ⟨p, hp, hfail⟩ := h
  have hnone : buildRegexSet (regexStringsOf content) = none :=
    buildRegexSet_eq_none hp hfail
  have hset : (fromContent content).regexSet = none := by
    simpa [fromContent] using hnone
  refine ⟨hset, ?_⟩
  unfold isWhitelisted
  rw [hset]
  simp

/-- Witness for the amended C4: a whitelist with an invalid regex, one
exact and one subdomain pattern. -/
theorem whitelist_invalid_regex_fallback_witness :
    (∃ p ∈ regexStringsOf (str "/(/\nok.com\n@@sub.org"),
        parseRegexStr p = none) ∧
    ((fromContent (str "/(/\nok.com\n@@sub.org")).regexSet = none ∧
     isWhitelisted (fromContent (str "/(/\nok.com\n@@sub.org")) (str "ok.com") =
      ((fromContent (str "/(/\nok.com\n@@sub.org")).exactPatterns.contains (str "ok.com") ||
       (fromContent (str "/(/\nok.com\n@@sub.org")).subdomainPatterns.any fun p =>
         decide (str "ok.com" = p.1) || endsWith p.2 (str "ok.com"))) :=
  ⟨by decide, whitelist_invalid_regex_fallback (str "/(/\nok.com\n@@sub.org") (str "ok.com") (by decide)⟩

/-! ## Extractor (`src/rust-worker/src/extractor.rs`)

The four fixed regexes of `DomainExtractor::new` are hand-translated into
recognizer functions.  The domain sub-pattern
`[a-zA-Z0-9][-a-zA-Z0-9]*(\.[a-zA-Z0-9][-a-zA-Z0-9]*)+` is implemented by
maximal munch (`munchDomain`), which agrees with the greedy backtracking
behaviour of the regex engine here because in every use site the character
following the capture can never be a domain character. -/

/-- `[-a-zA-Z0-9]` (continuation characters of a label). -/
def isLabelChar (c : Char) : Bool := c.isAlphanum || c = '-'

theorem length_dropWhile_le' (p : Char → Bool) (l : List Char) :
    (l.dropWhile p).length ≤ l.length := by
  induction l with
  | nil => simp
  | cons c cs ih =>
    rw [List.dropWhile_cons]
    split
    · simp; omega
    · simp

/-- Greedy parse of `(\.[a-zA-Z0-9][-a-zA-Z0-9]*)*` (fuel-indexed so that
every consumer stays kernel-computable): returns the consumed prefix and
the rest. -/
def munchGroupsF : Nat → Str → Str × Str
  | 0, s => ([], s)
  | fuel + 1, s =>
    match s with
    | a :: b :: rest =>
      if a = '.' ∧ b.isAlphanum then
        (a :: b :: (rest.takeWhile isLabelChar ++
            (munchGroupsF fuel (rest.dropWhile isLabelChar)).1),
         (munchGroupsF fuel (rest.dropWhile isLabelChar)).2)
      else ([], s)
    | _ => ([], s)

/-- Greedy parse of `(\.[a-zA-Z0-9][-a-zA-Z0-9]*)*` with sufficient fuel. -/
def munchGroups (s : Str) : Str × Str := munchGroupsF s.length s

/-- Greedy parse of the full domain pattern (at least one dot group). -/
def munchDomain (s : Str) : Option (Str × Str) :=
  match s with
  | c :: rest =>
    if c.isAlphanum then
      if (munchGroups (rest.dropWhile isLabelChar)).1 = [] then none
      else some (c :: (rest.takeWhile isLabelChar ++
              (munchGroups (rest.dropWhile isLabelChar)).1),
            (munchGroups (rest.dropWhile isLabelChar)).2)
    else none
  | [] => none

/-- Hand translation of `hosts_pattern`
(`^(?:0\.0\.0\.0|127\.0\.0\.1)\s+(domain)`); whitespace is modelled with
`Char.isWhitespace`. -/
def hostsCapture (line : Str) : Option Str :=
  match (if startsWith ['0', '.', '0', '.', '0', '.', '0'] line then some (line.drop 7)
         else if startsWith ['1', '2', '7', '.', '0', '.', '0', '.', '1'] line then some (line.drop 9)
         else none) with
  | none => none
  | some rest =>
    if rest.takeWhile Char.isWhitespace = [] then none
    else
      match munchDomain (rest.dropWhile Char.isWhitespace) with
      | some p => some p.1
      | none => none

/-- The tail admitted after the adblock domain (`\^?(\$.+)?$`); returns the
captured modifier group when the tail matches.  (`.` does not match a
newline, hence the `'\n'` condition.) -/
def adblockModsOf (tail : Str) : Option (Option Str) :=
  match tail with
  | [] => some none
  | '^' :: rest =>
    match rest with
    | [] => some none
    | '$' :: r => if r ≠ [] ∧ ¬ r.contains '\n' then some (some ('$' :: r)) else none
    | _ => none
  | '$' :: r => if r ≠ [] ∧ ¬ r.contains '\n' then some (some ('$' :: r)) else none
  | _ => none

/-- Hand translation of `adblock_pattern`
(`^\|\|(domain)\^?(\$.+)?$`): returns the domain and the optional modifier
capture. -/
def adblockCapture (line : Str) : Option (Str × Option Str) :=
  match line with
  | '|' :: '|' :: rest =>
    match munchDomain rest with
    | some p =>
      match adblockModsOf p.2 with
      | some mods => some (p.1, mods)
      | none => none
    | none => none
  | _ => none

/-- Hand translation of `plain_pattern` (`^(domain)$`). -/
def plainCapture (line : Str) : Option Str :=
  match munchDomain line with
  | some (d, []) => some d
  | _ => none

/-- Substring test (unanchored search for a literal). -/
def containsSub (needle hay : Str) : Bool :=
  (List.range (hay.length + 1)).any fun k => startsWith needle (hay.drop k)

/-- `comment_pattern` (`^[#!]`). -/
def commentHit (line : Str) : Bool :=
  match line with
  | c :: _ => c = '#' || c = '!'
  | [] => false

/-- `css_filter_pattern` (`##|#@#|#\?#|#\$#|#\+js\(`). -/
def cssFilterHit (line : Str) : Bool :=
  containsSub ['#', '#'] line || containsSub ['#', '@', '#'] line ||
  containsSub ['#', '?', '#'] line || containsSub ['#', '$', '#'] line ||
  containsSub ['#', '+', 'j', 's', '('] line

/-- Case-insensitive prefix test against an (already lowercase) keyword. -/
def startsWithCI : Str → Str → Bool
  | [], _ => true
  | _ :: _, [] => false
  | p :: ps, c :: cs => p = c.toLower && startsWithCI ps cs

/-- The skip keywords of `skip_modifiers_pattern`. -/
def skipKeywords : List Str :=
  [['t','h','i','r','d','-','p','a','r','t','y'],
   ['b','a','d','f','i','l','t','e','r'],
   ['r','e','m','o','v','e','p','a','r','a','m'],
   ['r','e','d','i','r','e','c','t'],
   ['c','s','p'],
   ['r','e','p','l','a','c','e'],
   ['c','o','o','k','i','e']]

/-- One of the skip keywords starts here (case-insensitively). -/
def kwAt (s : Str) : Bool := skipKeywords.any fun k => startsWithCI k s

/-- The `(.*,)kw` path of the skip regex: scan (stopping at `'\n'`, which
`.` cannot match) for a comma followed directly by a keyword. -/
def commaScan : Str → Bool
  | [] => false
  | c :: rest => if c = '\n' then false else ((c = ',' && kwAt rest) || commaScan rest)

/-- What `\$(.*,)?(kw...)` requires after a `$`. -/
def afterDollar (s : Str) : Bool := kwAt s || commaScan s

/-- Hand translation of `skip_modifiers_pattern`
(`(?i)\$(.*,)?(third-party|badfilter|removeparam|redirect|csp|replace|cookie)`,
unanchored search): some `$` followed (directly, or via an arbitrary
newline-free run ending in a comma) by a skip keyword. -/
def skipModsHit : Str → Bool
  | [] => false
  | c :: rest => (c = '$' && afterDollar rest) || skipModsHit rest

/-- `ExtractionResult`. -/
structure ExtractionResultM where
  domain : Str
  rawAdblockRule : Option Str
deriving DecidableEq, Repr

/-- `DetectedFormat`. -/
inductive DetectedFormatM where
  | hosts | plain | adblock
deriving DecidableEq, Repr

/-- `DomainExtractor::extract_domain`: trim, skip empty/comment lines, skip
cosmetic filters, then try hosts, adblock (with the modifier skip check
returning `None` directly), and plain formats in that order. -/
def extractDomain (line : Str) : Option (ExtractionResultM × DetectedFormatM) :=
  let line := trimStr line
  if line = [] ∨ commentHit line then none
  else if cssFilterHit line then none
  else
    match hostsCapture line with
    | some d => some (⟨lowerStr d, none⟩, .hosts)
    | none =>
      match adblockCapture line with
      | some dm =>
        match dm.2 with
        | some m =>
          if skipModsHit m then none
          else some (⟨lowerStr dm.1, some line⟩, .adblock)
        | none => some (⟨lowerStr dm.1, some line⟩, .adblock)
      | none =>
        match plainCapture line with
        | some d => some (⟨lowerStr d, none⟩, .plain)
        | none => none

/-- `DomainExtractor::extract_from_content` (line order is preserved by the
parallel collect). -/
def extractFromContent (content : Str) : List ExtractionResultM :=
  (linesOf content).filterMap fun l => (extractDomain l).map Prod.fst

/-! ### Claim C7: adblock lines and the modifier skip -/

/-- A well-formed label `[a-zA-Z0-9][-a-zA-Z0-9]*`. -/
def goodLabel (l : Str) : Prop :=
  ∃ c cs, l = c :: cs ∧ c.isAlphanum = true ∧ ∀ x ∈ cs, isLabelChar x = true

/-- Rendering of dot groups. -/
def dotted (gs : List Str) : Str := (gs.map fun g => '.' :: g).flatten

/-- The strings matched by the domain sub-pattern
`[a-zA-Z0-9][-a-zA-Z0-9]*(\.[a-zA-Z0-9][-a-zA-Z0-9]*)+`. -/
def DomainGrammar (d : Str) : Prop :=
  ∃ l0 gs, d = l0 ++ dotted gs ∧ goodLabel l0 ∧ gs ≠ [] ∧ ∀ g ∈ gs, goodLabel g

/-- A continuation on which greedy domain munching must stop. -/
def stopsDomain (rest : Str) : Prop :=
  rest = [] ∨ ∃ x r', rest = x :: r' ∧ isLabelChar x = false ∧ x ≠ '.'

theorem takeWhile_stops {p : Char → Bool} :
    ∀ {a b : Str}, (∀ x ∈ a, p x = true) → (∀ x r', b = x :: r' → p x = false) →
      (a ++ b).takeWhile p = a ∧ (a ++ b).dropWhile p = b := by
  intro a
  induction a with
  | nil =>
    intro b _ hb
    cases b with
    | nil => simp
    | cons x r' => simp [List.takeWhile_cons, List.dropWhile_cons, hb x r' rfl]
  | cons c cs ih =>
    intro b ha hb
    have hc : p c = true := ha c (by simp)
    have := ih (fun x hx => ha x (by simp [hx])) hb
    simp [List.takeWhile_cons, List.dropWhile_cons, hc, this.1, this.2]

theorem munchGroupsF_stops {rest : Str} (h : stopsDomain rest) :
    ∀ fuel, munchGroupsF fuel rest = ([], rest) := by
  intro fuel
  cases fuel with
  | zero => rfl
  | succ fuel =>
    rcases h with h0 | ⟨x, r', hx, _, hdot⟩
    · subst h0; rfl
    · subst hx
      cases r' with
      | nil => rfl
      | cons y r'' =>
        simp only [munchGroupsF]
        rw [if_neg fun hc => hdot hc.1]

theorem munchGroupsF_render :
    ∀ (gs : List Str) (rest : Str) (fuel : Nat),
      (∀ g ∈ gs, goodLabel g) → stopsDomain rest →
      (dotted gs ++ rest).length ≤ fuel →
      munchGroupsF fuel (dotted gs ++ rest) = (dotted gs, rest) := by
  intro gs
  induction gs with
  | nil =>
    intro rest fuel _ hrest _
    simpa [dotted] using munchGroupsF_stops hrest fuel
  | cons g gs' ih =>
    intro rest fuel hgs hrest hfuel
    obtain ⟨c, cs, hg, hc, hcs⟩ := hgs g (by simp)
    have hgs' : ∀ g' ∈ gs', goodLabel g' := fun g' hg' => hgs g' (by simp [hg'])
    subst hg
    have hshape : dotted ((c :: cs) :: gs') ++ rest =
        '.' :: c :: (cs ++ (dotted gs' ++ rest)) := by
      simp [dotted, List.append_assoc]
    rw [hshape] at hfuel ⊢
    cases fuel with
    | zero => simp at hfuel
    | succ fuel =>
      have hstop : ∀ x r', dotted gs' ++ rest = x :: r' → isLabelChar x = false := by
        intro x r' hx
        cases gs' with
        | nil =>
          simp only [dotted, List.map_nil, List.flatten_nil, List.nil_append] at hx
          rcases hrest with h0 | ⟨y, r'', hy, hl, _⟩
          · subst h0; simp at hx
          · rw [hy] at hx
            injection hx with h1 _
            rw [← h1]
            exact hl
        | cons g2 gs'' =>
          have : dotted (g2 :: gs'') = '.' :: (g2 ++ dotted gs'') := by
            simp [dotted]
          rw [this] at hx
          injection hx with h1 _
          rw [← h1]
          decide
      have htd := takeWhile_stops (p := isLabelChar) (a := cs)
        (b := dotted gs' ++ rest) hcs hstop
      simp only [munchGroupsF]
      rw [if_pos (⟨trivial, hc⟩ : True ∧ c.isAlphanum = true), htd.1, htd.2]
      have hlen : (dotted gs' ++ rest).length ≤ fuel := by
        simp only [List.length_cons, List.length_append] at hfuel ⊢
        omega
      rw [ih rest fuel hgs' hrest hlen]
      simp [dotted, List.append_assoc]

theorem munchGroups_render {gs : List Str} {rest : Str}
    (hgs : ∀ g ∈ gs, goodLabel g) (hrest : stopsDomain rest) :
    munchGroups (dotted gs ++ rest) = (dotted gs, rest) :=
  munchGroupsF_render gs rest _ hgs hrest le_rfl

theorem munchDomain_grammar {d rest : Str} (hd : DomainGrammar d)
    (hrest : stopsDomain rest) : munchDomain (d ++ rest) = some (d, rest) := by
  obtain ⟨l0, gs, hdd, ⟨c, cs, hl0, hc, hcs⟩, hne, hgs⟩ := hd
  subst hl0
  subst hdd
  have hshape : ((c :: cs) ++ dotted gs) ++ rest = c :: (cs ++ (dotted gs ++ rest)) := by
    simp [List.append_assoc]
  rw [hshape]
  have hstop : ∀ x r', dotted gs ++ rest = x :: r' → isLabelChar x = false := by
    intro x r' hx
    cases gs with
    | nil => exact absurd rfl hne
    | cons g2 gs'' =>
      have : dotted (g2 :: gs'') = '.' :: (g2 ++ dotted gs'') := by simp [dotted]
      rw [this] at hx
      injection hx with h1 _
      rw [← h1]
      decide
  have htd := takeWhile_stops (p := isLabelChar) (a := cs)
    (b := dotted gs ++ rest) hcs hstop
  have hmg := munchGroups_render hgs hrest
  have hdne : dotted gs ≠ [] := by
    cases gs with
    | nil => exact absurd rfl hne
    | cons g2 gs'' => simp [dotted]
  simp only [munchDomain]
  rw [if_pos hc, htd.2, hmg]
  simp only [if_neg hdne, htd.1]
  simp [List.append_assoc]

/-- Claim C7, counterexample: the line `||example.com^$~third-party` — its
modifier string contains `third-party` (so the claim requires it to be
skipped), but `skip_modifiers_pattern` requires the keyword to follow a `$`
or a comma, so the extractor emits the line. -/
theorem modifier_contains_keyword_but_emitted :
    containsSub (str "third-party") (str "$~third-party") = true ∧
    extractDomain (str "||example.com^$~third-party") =
      some (⟨str "example.com", some (str "||example.com^$~third-party")⟩,
        DetectedFormatM.adblock) := by
  constructor
  · decide
  · decide

/-- Claim C7, amended: for a trimmed, newline-free line
`||<domain>^<mods>` with `<mods>` empty or of the form `$<rest>`: the
extractor skips the line iff the whole line contains a cosmetic-filter
marker (`##`, `#@#`, `#?#`, `#$#`, `#+js(`) or the modifier string matches
the skip pattern — a skip keyword (case-insensitively) directly after a `$`,
or directly after a comma that follows a `$` with no intervening newline;
otherwise it emits the lowercased domain as format adblock and preserves
the trimmed line verbatim.  (`$important` and `$all` contain no skip
keyword in those positions, so such lines are emitted.) -/
theorem extract_adblock_characterization (d m : Str)
    (hd : DomainGrammar d)
    (hm : m = [] ∨ ∃ r, m = '$' :: r ∧ r ≠ [] ∧ ¬ r.contains '\n')
    (htrim : trimStr ('|' :: '|' :: (d ++ '^' :: m)) = '|' :: '|' :: (d ++ '^' :: m)) :
    extractDomain ('|' :: '|' :: (d ++ '^' :: m)) =
      (if cssFilterHit ('|' :: '|' :: (d ++ '^' :: m)) ∨ skipModsHit m then none
       else some (⟨lowerStr d, some ('|' :: '|' :: (d ++ '^' :: m))⟩,
         DetectedFormatM.adblock)) := by
  have hmunch : munchDomain (d ++ '^' :: m) = some (d, '^' :: m) :=
    munchDomain_grammar hd (Or.inr ⟨'^', m, rfl, by decide, by decide⟩)
  unfold extractDomain
  rw [htrim]
  have h1 : ¬ ('|' :: '|' :: (d ++ '^' :: m) = [] ∨
      commentHit ('|' :: '|' :: (d ++ '^' :: m)) = true) := by
    rintro (h | h)
    · exact List.cons_ne_nil _ _ h
    · simp [commentHit] at h
  rw [if_neg h1]
  by_cases hcss : cssFilterHit ('|' :: '|' :: (d ++ '^' :: m)) = true
  · rw [if_pos hcss, if_pos (Or.inl hcss)]
  · rw [if_neg hcss]
    have hhosts : hostsCapture ('|' :: '|' :: (d ++ '^' :: m)) = none := rfl
    rw [hhosts]
    rcases hm with hm0 | ⟨r, hmr, hrne, hrnl⟩
    · subst hm0
      have hab : adblockCapture ('|' :: '|' :: (d ++ '^' :: ([] : Str))) =
          some (d, none) := by
        simp only [adblockCapture, hmunch]
        rfl
      rw [hab]
      simp [skipModsHit, hcss]
    · subst hmr
      have hab : adblockCapture ('|' :: '|' :: (d ++ '^' :: '$' :: r)) =
          some (d, some ('$' :: r)) := by
        simp only [adblockCapture, hmunch]
        simp only [adblockModsOf]
        rw [if_pos ⟨hrne, hrnl⟩]
      rw [hab]
      by_cases hskip : skipModsHit ('$' :: r) = true
      · simp [hskip, hcss]
      · simp [hskip, hcss]

/-- Witness for the amended C7 at `||example.com^$important`. -/
theorem extract_adblock_characterization_witness :
    DomainGrammar (str "example.com") ∧
    ((str "$important" : Str) = [] ∨ ∃ r, (str "$important" : Str) = '$' :: r ∧
      r ≠ [] ∧ ¬ r.contains '\n') ∧
    trimStr ('|' :: '|' :: (str "example.com" ++ '^' :: str "$important")) =
      '|' :: '|' :: (str "example.com" ++ '^' :: str "$important") ∧
    extractDomain ('|' :: '|' :: (str "example.com" ++ '^' :: str "$important")) =
      (if cssFilterHit ('|' :: '|' :: (str "example.com" ++ '^' :: str "$important")) ∨
          skipModsHit (str "$important") then none
       else some (⟨lowerStr (str "example.com"),
         some ('|' :: '|' :: (str "example.com" ++ '^' :: str "$important"))⟩,
         DetectedFormatM.adblock)) := by
  have hgram : DomainGrammar (str "example.com") := by
    refine ⟨['e','x','a','m','p','l','e'], [['c','o','m']], by decide,
      ⟨'e', ['x','a','m','p','l','e'], rfl, by decide, by decide⟩, by decide, ?_⟩
    intro g hg
    simp at hg
    subst hg
    exact ⟨'c', ['o','m'], rfl, by decide, by decide⟩
  have hmods : (str "$important" : Str) = [] ∨ ∃ r, (str "$important" : Str) = '$' :: r ∧
      r ≠ [] ∧ ¬ r.contains '\n' :=
    Or.inr ⟨['i','m','p','o','r','t','a','n','t'], by decide, by decide, by decide⟩
  exact ⟨hgram, hmods, by decide,
    extract_adblock_characterization (str "example.com") (str "$important")
      hgram hmods (by decide)⟩

/-! ## Downloader (`src/rust-worker/src/downloader.rs`) -/

/-- `Source`. -/
structure SourceM where
  name : Str
  url : Str
  category : Option Str
deriving DecidableEq, Repr

/-- `CacheMetadata`. -/
structure CacheMetadataM where
  url : Str
  etag : Option Str
  lastModified : Option Str
  contentLength : Option Nat
  cachedAt : Nat
  lastAccessedAt : Nat
  accessCount : Nat
  domainCount : Option Nat
deriving DecidableEq, Repr

/-- The observable behaviour of one HTTP exchange: a send failure, or a
status with headers and a stream of chunks (each chunk either bytes or a
mid-stream read error). -/
structure HttpResponseM where
  sendError : Option Str
  status : Nat
  etag : Option Str
  lastModified : Option Str
  contentLength : Option Nat
  chunks : List (Except Str (List Nat))
deriving Repr

/-- What `fetch_and_cache` produces on success: the byte count, warnings,
the bytes written to the cache file, and the stored metadata. -/
structure FetchOutcomeM where
  bytesDownloaded : Nat
  warnings : List Str
  fileContent : List Nat
  metadata : CacheMetadataM
deriving Repr

/-- The `while let Some(chunk) = stream.next()` loop: accumulate
`bytes_downloaded` and the file content, failing on a chunk error. -/
def streamLoop : List (Except Str (List Nat)) → Except Str (Nat × List Nat)
  | [] => Except.ok (0, [])
  | Except.error _ :: _ => Except.error (str "Error reading response body")
  | Except.ok c :: rest =>
    match streamLoop rest with
    | Except.error e => Except.error e
    | Except.ok nf => Except.ok (c.length + nf.1, c ++ nf.2)

/-- Decimal rendering for the HTTP status message. -/
def natToStr (n : Nat) : Str := (Nat.repr n).data

/-- `Downloader::fetch_and_cache`: check the send result, bail on non-2xx,
capture ETag/Last-Modified/Content-Length, stream the body to the cache
file with no size check of any kind, warn on an empty body, and store the
metadata.  (Filesystem writes are represented by the returned
`fileContent`/`metadata`.) -/
def fetchAndCache (source : SourceM) (now : Nat) (resp : HttpResponseM) :
    Except Str FetchOutcomeM :=
  match resp.sendError with
  | some _ => Except.error (str "Failed to fetch " ++ source.url)
  | none =>
    if ¬ (200 ≤ resp.status ∧ resp.status ≤ 299) then
      Except.error (str "HTTP " ++ natToStr resp.status ++ str " for " ++ source.url)
    else
      match streamLoop resp.chunks with
      | Except.error e => Except.error e
      | Except.ok nf =>
        Except.ok
          ⟨nf.1,
           (if nf.1 = 0 then [str "Downloaded empty file"] else []),
           nf.2,
           ⟨source.url, resp.etag, resp.lastModified, resp.contentLength,
            now, now, 1, none⟩⟩

/-- A large byte list no simp procedure expands. -/
def zeros : Nat → List Nat
  | 0 => []
  | n + 1 => 0 :: zeros n

theorem zeros_length : ∀ n, (zeros n).length = n := by
  intro n
  induction n with
  | zero => rfl
  | succ n ih => simp [zeros, ih]

theorem streamLoop_single (c : List Nat) :
    streamLoop [Except.ok c] = Except.ok (c.length, c) := by
  simp [streamLoop]

/-- Shared success-path computation of `fetch_and_cache`. -/
theorem fetchAndCache_ok (src : SourceM) (now : Nat) (resp : HttpResponseM)
    (total : Nat) (content : List Nat)
    (hsend : resp.sendError = none)
    (hstatus : 200 ≤ resp.status ∧ resp.status ≤ 299)
    (hchunks : streamLoop resp.chunks = Except.ok (total, content)) :
    fetchAndCache src now resp = Except.ok
      ⟨total,
       (if total = 0 then [str "Downloaded empty file"] else []),
       content,
       ⟨src.url, resp.etag, resp.lastModified, resp.contentLength,
        now, now, 1, none⟩⟩ := by
  unfold fetchAndCache
  rw [hsend]
  rw [if_neg (not_not_intro hstatus)]
  rw [hchunks]

/-- Claim C5, counterexample: a 200 response whose single chunk holds
100 MiB + 1 bytes (104857601 > 104857600) is accepted in full and cached —
`fetch_and_cache` never consults `Content-Length` and never aborts the
stream, while the claim requires failure before streaming and an abort once
the running total exceeds 100 MiB. -/
theorem oversized_download_accepted :
    fetchAndCache ⟨str "big", str "http://big.example/x", none⟩ 7
        ⟨none, 200, none, none, some 104857601,
         [Except.ok (zeros 104857601)]⟩ =
      Except.ok
        ⟨104857601, [], zeros 104857601,
         ⟨str "http://big.example/x", none, none, some 104857601, 7, 7, 1, none⟩⟩ ∧
    104857600 < 104857601 := by
  constructor
  · have hs : streamLoop [Except.ok (zeros 104857601)] =
        Except.ok (104857601, zeros 104857601) := by
      rw [streamLoop_single, zeros_length]
    rw [fetchAndCache_ok _ 7 _ 104857601 (zeros 104857601) rfl (by decide) hs]
    norm_num
  · omega

/-- Claim C5, amended: `fetch_and_cache` enforces no size limit at all:
for every response that sends successfully with a 2xx status and whose
chunks all arrive, the download succeeds, `bytes_downloaded` is the total
chunk length, and the whole body is written to the cache file — whatever
the `Content-Length` header says and however large the body is (both
100 MiB and 100 MiB + 1 byte are accepted). -/
theorem fetch_and_cache_no_size_limit (src : SourceM) (now : Nat)
    (resp : HttpResponseM) (total : Nat) (content : List Nat)
    (hsend : resp.sendError = none)
    (hstatus : 200 ≤ resp.status ∧ resp.status ≤ 299)
    (hchunks : streamLoop resp.chunks = Except.ok (total, content)) :
    fetchAndCache src now resp = Except.ok
      ⟨total,
       (if total = 0 then [str "Downloaded empty file"] else []),
       content,
       ⟨src.url, resp.etag, resp.lastModified, resp.contentLength,
        now, now, 1, none⟩⟩ :=
  fetchAndCache_ok src now resp total content hsend hstatus hchunks

/-- Witness for the amended C5 at a two-chunk 204 response. -/
theorem fetch_and_cache_no_size_limit_witness :
    ((⟨none, 204, none, none, none,
        [Except.ok [1, 2], Except.ok [3]]⟩ : HttpResponseM).sendError = none) ∧
    (200 ≤ (204 : Nat) ∧ (204 : Nat) ≤ 299) ∧
    streamLoop [Except.ok [1, 2], Except.ok [3]] = Except.ok (3, [1, 2, 3]) ∧
    fetchAndCache ⟨str "s", str "http://h/x", none⟩ 5
        ⟨none, 204, none, none, none, [Except.ok [1, 2], Except.ok [3]]⟩ =
      Except.ok
        ⟨3, (if (3 : Nat) = 0 then [str "Downloaded empty file"] else []),
         [1, 2, 3],
         ⟨str "http://h/x", none, none, none, 5, 5, 1, none⟩⟩ :=
  ⟨rfl, by omega, rfl,
   fetch_and_cache_no_size_limit ⟨str "s", str "http://h/x", none⟩ 5
     ⟨none, 204, none, none, none, [Except.ok [1, 2], Except.ok [3]]⟩
     3 [1, 2, 3] rfl (by decide) rfl⟩

/-! ## Bounded-parallel batch download (`Downloader::download_sources`)

Operational model of `futures::stream::iter(..).enumerate().map(..)
.buffered(n).map(callback).collect()`: up to `n` futures are in flight; an
adversarial `pick` function chooses which running future completes next;
`buffered` releases results only from the front of the FIFO, so collected
output retains input order.  `g i` is the (pure) result of downloading the
`i`-th source. -/

section Buffered

variable {R : Type}

/-- Start futures from `pending` until `n` are in flight (`none` marks a
still-running future). -/
def fillInflight (n : Nat) (inflight : List (Nat × Option R)) (pending : List Nat) :
    List (Nat × Option R) × List Nat :=
  (inflight ++ (pending.take (n - inflight.length)).map fun i => (i, none),
   pending.drop (n - inflight.length))

/-- Indices of in-flight futures still running. -/
def runningIdxs (infl : List (Nat × Option R)) : List Nat :=
  infl.filterMap fun p => if p.2.isNone then some p.1 else none

/-- Completion of future `i` with result `g i`. -/
def markDone (g : Nat → R) (i : Nat) (infl : List (Nat × Option R)) :
    List (Nat × Option R) :=
  infl.map fun p => if p.1 = i ∧ p.2.isNone then (p.1, some (g p.1)) else p

/-- Pop completed futures from the front of the FIFO (the only way
`buffered` yields items, hence in input order). -/
def drainDone : List (Nat × Option R) → List R × List (Nat × Option R)
  | [] => ([], [])
  | (i, none) :: rest => ([], (i, none) :: rest)
  | (_, some r) :: rest => (r :: (drainDone rest).1, (drainDone rest).2)

/-- The polling loop of the buffered stream, driven by an adversarial
completion choice `pick`; one completion per fuel unit. -/
def bufLoop (g : Nat → R) (n : Nat) (pick : List Nat → Nat) :
    Nat → List (Nat × Option R) → List Nat → List R → List R
  | 0, infl, _, out => out ++ infl.filterMap (·.2)
  | fuel + 1, infl, pending, out =>
    let fp := fillInflight n infl pending
    if runningIdxs fp.1 = [] then out ++ fp.1.filterMap (·.2)
    else
      let dr := drainDone (markDone g (pick (runningIdxs fp.1)) fp.1)
      bufLoop g n pick fuel dr.2 fp.2 (out ++ dr.1)

/-- `.buffered(n).collect()` over futures `0..len`. -/
def bufferedCollect (g : Nat → R) (n : Nat) (pick : List Nat → Nat) (len : Nat) :
    List R :=
  bufLoop g n pick len [] (List.range len) []

/-- `Downloader::download_sources`: one future per `(idx, source)` pair,
`buffered(max_concurrent)`, results collected in stream order. -/
def downloadSources (f : Nat → SourceM → R) (sources : List SourceM) (n : Nat)
    (pick : List Nat → Nat) : List R :=
  bufferedCollect (fun i => f i (sources.getD i ⟨[], [], none⟩)) n pick sources.length

theorem take_range' (j s k : Nat) :
    (List.range' s k).take j = List.range' s (min j k) := by
  induction k generalizing s j with
  | zero => simp
  | succ k ih =>
    cases j with
    | zero => simp
    | succ j =>
      rw [List.range'_succ, List.take_succ_cons, ih]
      have : min (j + 1) (k + 1) = (min j k) + 1 := by omega
      rw [this, List.range'_succ]

theorem drop_range' (j s k : Nat) :
    (List.range' s k).drop j = List.range' (s + min j k) (k - j) := by
  induction k generalizing s j with
  | zero => simp
  | succ k ih =>
    cases j with
    | zero => simp
    | succ j =>
      rw [List.range'_succ, List.drop_succ_cons, ih]
      have h1 : s + 1 + min j k = s + min (j + 1) (k + 1) := by omega
      have h2 : k - j = k + 1 - (j + 1) := by omega
      rw [h1, h2]

theorem range'_glue (s m k : Nat) :
    List.range' s m ++ List.range' (s + m) k = List.range' s (m + k) := by
  have := List.range'_append s m k 1
  simp only [Nat.one_mul] at this
  rw [this, Nat.add_comm k m]

/-- The in-flight window as a function of its index range and status map. -/
def W (a m : Nat) (st : Nat → Option R) : List (Nat × Option R) :=
  (List.range' a m).map fun i => (i, st i)

theorem runningIdxs_W (a m : Nat) (st : Nat → Option R) :
    runningIdxs (W a m st) =
      (List.range' a m).filterMap fun i => if (st i).isNone then some i else none := by
  unfold runningIdxs W
  rw [List.filterMap_map]
  rfl

theorem markDone_W {a m : Nat} {st : Nat → Option R} {g : Nat → R} {i : Nat}
    (hi : st i = none) :
    markDone g i (W a m st) =
      W a m (fun j => if j = i then some (g j) else st j) := by
  unfold markDone W
  rw [List.map_map]
  apply List.map_congr_left
  intro j _
  by_cases hj : j = i
  · subst hj
    simp [Function.comp, hi]
  · simp [Function.comp, hj]

theorem drainDone_W_split (g : Nat → R) :
    ∀ (t : Nat) (a : Nat) (m : Nat) (st : Nat → Option R),
      (∀ j, j < t → st (a + j) = some (g (a + j))) →
      (t < m → st (a + t) = none) →
      t ≤ m →
      drainDone (W a m st) = ((List.range' a t).map g, W (a + t) (m - t) st) := by
  intro t
  induction t with
  | zero =>
    intro a m st _ hfront _
    cases m with
    | zero => simp [W, drainDone]
    | succ m =>
      have h0 : st a = none := by simpa using hfront (by omega)
      rw [show W a (m + 1) st = (a, st a) :: W (a + 1) m st by
        simp [W, List.range'_succ]]
      rw [h0]
      simp [drainDone, W, List.range'_succ, h0]
  | succ t ih =>
    intro a m st hdone hfront hle
    cases m with
    | zero => omega
    | succ m =>
      have h0 : st a = some (g a) := by simpa using hdone 0 (by omega)
      rw [show W a (m + 1) st = (a, st a) :: W (a + 1) m st by
        simp [W, List.range'_succ]]
      rw [h0]
      have ihm := ih (a + 1) m st
        (fun j hj => by
          have := hdone (j + 1) (by omega)
          simpa [Nat.add_assoc, Nat.add_comm 1 j] using this)
        (fun hlt => by
          have := hfront (by omega)
          simpa [Nat.add_assoc, Nat.add_comm 1 t] using this)
        (by omega)
      simp only [drainDone, ihm]
      rw [show a + 1 + t = a + (t + 1) by omega,
        show m + 1 - (t + 1) = m - t by omega, List.range'_succ]
      simp

theorem takeWhile_range'_spec (p : Nat → Bool) :
    ∀ (m a : Nat),
      ((List.range' a m).takeWhile p).length ≤ m ∧
      (∀ j, j < ((List.range' a m).takeWhile p).length → p (a + j) = true) ∧
      (((List.range' a m).takeWhile p).length < m →
        p (a + ((List.range' a m).takeWhile p).length) = false) := by
  intro m
  induction m with
  | zero => intro a; simp
  | succ m ih =>
    intro a
    rw [List.range'_succ, List.takeWhile_cons]
    cases hpa : p a with
    | false =>
      rw [if_neg Bool.false_ne_true]
      refine ⟨by simp, ?_, ?_⟩
      · intro j hj
        simp at hj
      · intro _
        simpa using hpa
    | true =>
      rw [if_pos rfl]
      simp only [List.length_cons]
      obtain ⟨h1, h2, h3⟩ := ih (a + 1)
      refine ⟨by omega, ?_, ?_⟩
      · intro j hj
        cases j with
        | zero => simpa using hpa
        | succ j =>
          have := h2 j (by omega)
          simpa [Nat.add_assoc, Nat.add_comm 1 j] using this
      · intro hlt
        have := h3 (by omega)
        simpa [Nat.add_assoc, Nat.add_comm 1] using this

theorem countP_flip_one {R : Type} {l : List Nat} (hnd : l.Nodup) {i : Nat}
    (hi : i ∈ l) {st : Nat → Option R} (hsti : st i = none) (v : R) :
    (l.countP fun j => ((if j = i then some v else st j : Option R)).isSome) =
      (l.countP fun j => (st j).isSome) + 1 := by
  induction l with
  | nil => simp at hi
  | cons a l' ih =>
    have hnd' : l'.Nodup := (List.nodup_cons.mp hnd).2
    by_cases ha : a = i
    · subst ha
      have hnotmem : a ∉ l' := (List.nodup_cons.mp hnd).1
      rw [List.countP_cons, List.countP_cons]
      have h1 : ((if a = a then some v else st a : Option R)).isSome = true := by simp
      have h2 : (st a).isSome = false := by simp [hsti]
      rw [h1, h2, if_pos rfl, if_neg Bool.false_ne_true]
      have : (l'.countP fun j => ((if j = a then some v else st j : Option R)).isSome) =
          l'.countP fun j => (st j).isSome := by
        apply List.countP_congr
        intro j hj
        have : j ≠ a := fun h => hnotmem (h ▸ hj)
        simp [this]
      omega
    · have hi' : i ∈ l' := by
        rcases List.mem_cons.mp hi with h | h
        · exact absurd h.symm ha
        · exact h
      rw [List.countP_cons, List.countP_cons]
      have : ((if a = i then some v else st a : Option R)).isSome = (st a).isSome := by
        simp [ha]
      rw [this, ih hnd' hi']
      omega

theorem countP_range'_st_none {R : Type} {st : Nat → Option R} {a k : Nat}
    (h : ∀ i, a ≤ i → st i = none) :
    ((List.range' a k).countP fun i => (st i).isSome) = 0 := by
  apply List.countP_eq_zero.mpr
  intro i hi
  have := (List.mem_range'_1.mp hi).1
  simp [h i this]

/-- The central invariant of the buffered stream: however the completion
order is chosen, the collected output is `g` mapped over the indices in
input order. -/
theorem bufLoop_spec {R : Type} (g : Nat → R) (n : Nat) (pick : List Nat → Nat)
    (hn : 0 < n) (hpick : ∀ rs : List Nat, rs ≠ [] → pick rs ∈ rs) (len : Nat) :
    ∀ (fuel a m : Nat) (st : Nat → Option R),
      a + m ≤ len → m ≤ n →
      (∀ i r, st i = some r → r = g i) →
      (0 < m → st a = none) →
      (∀ i, a + m ≤ i → st i = none) →
      fuel = (len - a) - ((List.range' a m).countP fun i => (st i).isSome) →
      bufLoop g n pick fuel (W a m st) (List.range' (a + m) (len - a - m))
          ((List.range a).map g) =
        (List.range len).map g := by
  intro fuel
  induction fuel with
  | zero =>
    intro a m st hal hmn hval hfront hout hfuel
    have hcnt_le : ((List.range' a m).countP fun i => (st i).isSome) ≤ m := by
      have := List.countP_le_length (p := fun i => (st i).isSome) (l := List.range' a m)
      simpa using this
    have hm0 : m = 0 := by
      by_contra hm
      have hmpos : 0 < m := Nat.pos_of_ne_zero hm
      have hsta := hfront hmpos
      obtain ⟨m', rfl⟩ : ∃ m', m = m' + 1 := ⟨m - 1, by omega⟩
      have hlt : ((List.range' a (m' + 1)).countP fun i => (st i).isSome) < m' + 1 := by
        rw [List.range'_succ, List.countP_cons]
        have h2 : (st a).isSome = false := by simp [hsta]
        rw [h2, if_neg Bool.false_ne_true]
        have := List.countP_le_length (p := fun i => (st i).isSome)
          (l := List.range' (a + 1) m')
        simp only [List.length_range'] at this
        omega
      omega
    subst hm0
    have hcnt0 : ((List.range' a 0).countP fun i => (st i).isSome) = 0 := by simp
    rw [hcnt0] at hfuel
    have ha : a = len := by omega
    subst ha
    simp [bufLoop, W]
  | succ fuel ih =>
    intro a m st hal hmn hval hfront hout hfuel
    set k := min (n - m) (len - a - m) with hk
    have hfill : fillInflight n (W a m st) (List.range' (a + m) (len - a - m)) =
        (W a (m + k) st, List.range' (a + (m + k)) (len - a - (m + k))) := by
      unfold fillInflight W
      rw [List.length_map, List.length_range']
      rw [take_range', drop_range']
      congr 1
      · have hmap : (List.range' (a + m) (min (n - m) (len - a - m))).map
            (fun i => (i, (none : Option R))) =
            (List.range' (a + m) (min (n - m) (len - a - m))).map fun i => (i, st i) := by
          apply List.map_congr_left
          intro i hi
          have := (List.mem_range'_1.mp hi).1
          rw [hout i this]
        rw [hmap, ← List.map_append, range'_glue, ← hk]
      · rw [← hk]
        congr 1
        · omega
        · omega
    simp only [bufLoop]
    rw [hfill]
    have hfront' : 0 < m + k → st a = none := by
      intro _
      by_cases hm : 0 < m
      · exact hfront hm
      · exact hout a (by omega)
    have hcnt_ext : ((List.range' a (m + k)).countP fun i => (st i).isSome) =
        (List.range' a m).countP fun i => (st i).isSome := by
      rw [← range'_glue a m k, List.countP_append,
        countP_range'_st_none (a := a + m) (k := k) fun i hi => hout i hi]
      omega
    by_cases hrun : runningIdxs (W a (m + k) st) = []
    · exfalso
      rcases Nat.eq_zero_or_pos (m + k) with hmk0 | hmkpos
      · have hm0 : m = 0 := by omega
        have hk0 : k = 0 := by omega
        have hla : len - a = 0 := by
          rw [hm0] at hk
          simp only [Nat.sub_zero] at hk
          omega
        rw [hm0] at hfuel
        simp at hfuel
        omega
      · have hsta : st a = none := hfront' hmkpos
        have hmem : a ∈ runningIdxs (W a (m + k) st) := by
          rw [runningIdxs_W]
          apply List.mem_filterMap.mpr
          refine ⟨a, List.mem_range'_1.mpr ⟨le_rfl, by omega⟩, by simp [hsta]⟩
        rw [hrun] at hmem
        exact absurd hmem (List.not_mem_nil a)
    · rw [if_neg hrun]
      have himem := hpick _ hrun
      set i := pick (runningIdxs (W a (m + k) st)) with hidef
      rw [runningIdxs_W] at himem
      obtain ⟨i0, hi0mem, hi0⟩ := List.mem_filterMap.mp himem
      have hi0some : (st i0).isNone = true ∧ i0 = i := by
        by_cases h : (st i0).isNone = true
        · rw [if_pos h] at hi0
          exact ⟨h, by injection hi0⟩
        · rw [if_neg h] at hi0
          cases hi0
      obtain ⟨hisNone, rfl⟩ := hi0some
      have hsti : st i = none := Option.isNone_iff_eq_none.mp hisNone
      have hirange : a ≤ i ∧ i < a + (m + k) := List.mem_range'_1.mp hi0mem
      rw [markDone_W hsti]
      set st' := fun j => if j = i then some (g j) else st j with hst'
      set t := ((List.range' a (m + k)).takeWhile fun j => (st' j).isSome).length with ht
      obtain ⟨htle, htdone, htfront⟩ := takeWhile_range'_spec (fun j => (st' j).isSome) (m + k) a
      have hval' : ∀ j r, st' j = some r → r = g j := by
        intro j r hj
        by_cases h : j = i
        · subst h
          rw [hst'] at hj
          simp at hj
          exact hj.symm
        · rw [hst'] at hj
          simp [h] at hj
          exact hval j r hj
      have hdrain := drainDone_W_split g t a (m + k) st'
        (fun j hj => by
          have hp := htdone j hj
          cases hsj : st' (a + j) with
          | none => rw [hsj] at hp; simp at hp
          | some r => rw [hval' (a + j) r hsj])
        (fun hlt => by
          have hp := htfront hlt
          cases hsj : st' (a + t) with
          | none => rfl
          | some r => rw [hsj] at hp; simp at hp)
        htle
      rw [hdrain]
      have hout_glue : (List.range a).map g ++ (List.range' a t).map g =
          (List.range (a + t)).map g := by
        have hr : List.range' 0 a ++ List.range' a t = List.range' 0 (a + t) := by
          have := range'_glue 0 a t
          rwa [Nat.zero_add] at this
        rw [← List.map_append, List.range_eq_range', List.range_eq_range', hr]
      have hpend_eq : List.range' (a + (m + k)) (len - a - (m + k)) =
          List.range' ((a + t) + ((m + k) - t)) (len - (a + t) - ((m + k) - t)) := by
        congr 1
        · omega
        · omega
      have hcnt_flip : ((List.range' a (m + k)).countP fun j => (st' j).isSome) =
          ((List.range' a (m + k)).countP fun j => (st j).isSome) + 1 := by
        have hnd : (List.range' a (m + k)).Nodup := List.nodup_range' a (m + k) 1 (by omega)
        have := countP_flip_one (v := g i) hnd hi0mem hsti
        rw [← this]
        apply List.countP_congr
        intro j _
        rw [hst']
        by_cases h : j = i
        · subst h; simp
        · simp [h]
      have hsplit_list : List.range' a (m + k) =
          List.range' a t ++ List.range' (a + t) ((m + k) - t) := by
        rw [range'_glue]
        congr 1
        omega
      have hcnt_split : ((List.range' a (m + k)).countP fun j => (st' j).isSome) =
          t + ((List.range' (a + t) ((m + k) - t)).countP fun j => (st' j).isSome) := by
        rw [hsplit_list, List.countP_append]
        congr 1
        have hlr : (List.range' a t).length = t := by simp
        conv_rhs => rw [← hlr]
        apply List.countP_eq_length.mpr
        intro j hj
        obtain ⟨h1, h2⟩ := List.mem_range'_1.mp hj
        have := htdone (j - a) (by omega)
        have hja : a + (j - a) = j := by omega
        rw [hja] at this
        exact this
      rw [hout_glue, hpend_eq]
      apply ih (a + t) ((m + k) - t) st'
      · omega
      · omega
      · exact hval'
      · intro hpos
        have hp := htfront (by omega)
        cases hsj : st' (a + t) with
        | none => rfl
        | some r => rw [hsj] at hp; simp at hp
      · intro j hj
        have hji : j ≠ i := by omega
        simp only [hst']
        rw [if_neg hji]
        exact hout j (by omega)
      · have hcnt_le : ((List.range' a m).countP fun i => (st i).isSome) ≤ m := by
          have := List.countP_le_length (p := fun i => (st i).isSome)
            (l := List.range' a m)
          simpa using this
        omega

/-- The collected output of the buffered stream, for any in-flight bound
`n > 0` and any valid completion choice. -/
theorem bufferedCollect_spec {R : Type} (g : Nat → R) (n : Nat)
    (pick : List Nat → Nat) (len : Nat) (hn : 0 < n)
    (hpick : ∀ rs : List Nat, rs ≠ [] → pick rs ∈ rs) :
    bufferedCollect g n pick len = (List.range len).map g := by
  unfold bufferedCollect
  have := bufLoop_spec g n pick hn hpick len len 0 0 (fun _ => none)
    (by omega) (by omega) (by intro i r h; cases h) (by omega)
    (by intro i _; rfl) (by simp)
  simpa [W, List.range_eq_range'] using this

/-- Claim C8: the batch download returns one result per source, and the
result at index `i` is the result for the source at index `i`, for every
in-flight bound `n > 0` and every completion order. -/
theorem download_sources_in_order {R : Type} (f : Nat → SourceM → R)
    (sources : List SourceM) (n : Nat) (pick : List Nat → Nat) (hn : 0 < n)
    (hpick : ∀ rs : List Nat, rs ≠ [] → pick rs ∈ rs) :
    (downloadSources f sources n pick).length = sources.length ∧
    ∀ i : Nat, (downloadSources f sources n pick)[i]? = (sources[i]?).map (f i) := by
  unfold downloadSources
  rw [bufferedCollect_spec _ _ _ _ hn hpick]
  constructor
  · simp
  · intro i
    by_cases h : i < sources.length
    · rw [List.getElem?_map, List.getElem?_range h]
      rw [List.getElem?_eq_getElem h]
      simp [List.getD_eq_getElem?_getD, List.getElem?_eq_getElem h]
    · have h1 : sources.length ≤ i := by omega
      rw [List.getElem?_eq_none (by simpa using h1), List.getElem?_eq_none h1]
      rfl

/-- Witness for C8: three sources, bound 2, first-running completion. -/
theorem download_sources_in_order_witness :
    ((0 : Nat) < 2 ∧ ∀ rs : List Nat, rs ≠ [] → rs.headI ∈ rs) ∧
    ((downloadSources (fun i s => (i, s.name)) [⟨str "a", str "http://a", none⟩,
        ⟨str "b", str "http://b", none⟩, ⟨str "c", str "http://c", none⟩] 2
        (fun rs => rs.headI)).length = 3 ∧
      ∀ i : Nat, (downloadSources (fun i s => (i, s.name))
          [⟨str "a", str "http://a", none⟩, ⟨str "b", str "http://b", none⟩,
           ⟨str "c", str "http://c", none⟩] 2 (fun rs => rs.headI))[i]? =
        (([⟨str "a", str "http://a", none⟩, ⟨str "b", str "http://b", none⟩,
           ⟨str "c", str "http://c", none⟩] : List SourceM)[i]?).map
          (fun s => (i, s.name))) := by
  have hhead : ∀ rs : List Nat, rs ≠ [] → rs.headI ∈ rs := by
    intro rs hrs
    cases rs with
    | nil => exact absurd rfl hrs
    | cons a l => simp [List.headI]
  have hmain := download_sources_in_order (fun i (s : SourceM) => (i, s.name))
    [⟨str "a", str "http://a", none⟩, ⟨str "b", str "http://b", none⟩,
     ⟨str "c", str "http://c", none⟩] 2 (fun rs => rs.headI)
    (by omega) hhead
  exact ⟨⟨by omega, hhead⟩, by simpa using hmain.1, hmain.2⟩

end Buffered

/-! ## SHA-256 (model of the `sha2` crate), byte-level, executable -/

/-- Addition modulo `2^32`. -/
def add32 (a b : Nat) : Nat := (a + b) % 4294967296

/-- 32-bit right rotation. -/
def rotr32 (n x : Nat) : Nat :=
  ((x >>> n) ||| (x <<< (32 - n))) % 4294967296

/-- SHA-256 Σ₀. -/
def bSig0 (x : Nat) : Nat := rotr32 2 x ^^^ rotr32 13 x ^^^ rotr32 22 x

/-- SHA-256 Σ₁. -/
def bSig1 (x : Nat) : Nat := rotr32 6 x ^^^ rotr32 11 x ^^^ rotr32 25 x

/-- SHA-256 σ₀. -/
def sSig0 (x : Nat) : Nat := rotr32 7 x ^^^ rotr32 18 x ^^^ (x >>> 3)

/-- SHA-256 σ₁. -/
def sSig1 (x : Nat) : Nat := rotr32 17 x ^^^ rotr32 19 x ^^^ (x >>> 10)

/-- SHA-256 Ch. -/
def chF (x y z : Nat) : Nat := (x &&& y) ^^^ ((x ^^^ 4294967295) &&& z)

/-- SHA-256 Maj. -/
def majF (x y z : Nat) : Nat := (x &&& y) ^^^ (x &&& z) ^^^ (y &&& z)

/-- The 64 round constants of FIPS 180-4 (decimal). -/
def K256 : List Nat :=
  [1116352408, 1899447441, 3049323471, 3921009573, 961987163, 1508970993,
   2453635748, 2870763221, 3624381080, 310598401, 607225278, 1426881987,
   1925078388, 2162078206, 2614888103, 3248222580, 3835390401, 4022224774,
   264347078, 604807628, 770255983, 1249150122, 1555081692, 1996064986,
   2554220882, 2821834349, 2952996808, 3210313671, 3336571891, 3584528711,
   113926993, 338241895, 666307205, 773529912, 1294757372, 1396182291,
   1695183700, 1986661051, 2177026350, 2456956037, 2730485921, 2820302411,
   3259730800, 3345764771, 3516065817, 3600352804, 4094571909, 275423344,
   430227734, 506948616, 659060556, 883997877, 958139571, 1322822218,
   1537002063, 1747873779, 1955562222, 2024104815, 2227730452, 2361852424,
   2428436474, 2756734187, 3204031479, 3329325298]

/-- The initial hash value of FIPS 180-4 (decimal). -/
def H256 : List Nat :=
  [1779033703, 3144134277, 1013904242, 2773480762,
   1359893119, 2600822924, 528734635, 1541459225]

/-- Big-endian 8-byte encoding. -/
def be64 (n : Nat) : List Nat :=
  [n >>> 56 % 256, n >>> 48 % 256, n >>> 40 % 256, n >>> 32 % 256,
   n >>> 24 % 256, n >>> 16 % 256, n >>> 8 % 256, n % 256]

/-- Message padding: `0x80`, zeros, 64-bit big-endian bit length. -/
def sha256pad (msg : List Nat) : List Nat :=
  let len := msg.length
  msg ++ 0x80 :: (List.replicate ((64 - ((len + 9) % 64)) % 64) 0 ++ be64 (8 * len))

/-- Split into 64-byte blocks (fuel-indexed for kernel computability). -/
def toBlocksF : Nat → List Nat → List (List Nat)
  | 0, _ => []
  | fuel + 1, l => if l = [] then [] else l.take 64 :: toBlocksF fuel (l.drop 64)

/-- Split into 64-byte blocks. -/
def toBlocks (l : List Nat) : List (List Nat) := toBlocksF (l.length + 1) l

/-- Big-endian 32-bit words of a block. -/
def blockWords : List Nat → List Nat
  | b0 :: b1 :: b2 :: b3 :: rest =>
    (((b0 * 256 + b1) * 256 + b2) * 256 + b3) :: blockWords rest
  | _ => []

/-- One step of the message-schedule extension. -/
def nextWord (ws : List Nat) : Nat :=
  let l := ws.length
  add32 (add32 (ws.getD (l - 16) 0) (sSig0 (ws.getD (l - 15) 0)))
    (add32 (ws.getD (l - 7) 0) (sSig1 (ws.getD (l - 2) 0)))

/-- Extend 16 words to 64. -/
def extendWords : Nat → List Nat → List Nat
  | 0, ws => ws
  | n + 1, ws => extendWords n (ws ++ [nextWord ws])

/-- One compression round. -/
def sha256round (st : List Nat) (kw : Nat × Nat) : List Nat :=
  match st with
  | [a, b, c, d, e, f, g, h] =>
    let t1 := add32 (add32 (add32 h (bSig1 e)) (add32 (chF e f g) kw.1)) kw.2
    let t2 := add32 (bSig0 a) (majF a b c)
    [add32 t1 t2, a, b, c, add32 d t1, e, f, g]
  | other => other

/-- Compress one 64-byte block into the running hash. -/
def compressBlock (h : List Nat) (block : List Nat) : List Nat :=
  let ws := extendWords 48 (blockWords block)
  let st := (K256.zip ws).foldl sha256round h
  (h.zip st).map fun p => add32 p.1 p.2

/-- Lowercase hex digit. -/
def hexChar (n : Nat) : Char :=
  if n < 10 then Char.ofNat (48 + n) else Char.ofNat (87 + n)

/-- Eight hex digits of a 32-bit word. -/
def wordHex (w : Nat) : Str :=
  [hexChar (w >>> 28 % 16), hexChar (w >>> 24 % 16), hexChar (w >>> 20 % 16),
   hexChar (w >>> 16 % 16), hexChar (w >>> 12 % 16), hexChar (w >>> 8 % 16),
   hexChar (w >>> 4 % 16), hexChar (w % 16)]

/-- SHA-256 of a byte sequence as a lowercase hex string
(`format!("{:x}", hasher.finalize())`). -/
def sha256hex (msg : List Nat) : Str :=
  (((toBlocks (sha256pad msg)).foldl compressBlock H256).map wordHex).flatten

/-- UTF-8 encoding of one scalar value. -/
def utf8Char (c : Char) : List Nat :=
  let n := c.toNat
  if n < 0x80 then [n]
  else if n < 0x800 then [0xC0 ||| (n >>> 6), 0x80 ||| (n &&& 0x3F)]
  else if n < 0x10000 then
    [0xE0 ||| (n >>> 12), 0x80 ||| ((n >>> 6) &&& 0x3F), 0x80 ||| (n &&& 0x3F)]
  else
    [0xF0 ||| (n >>> 18), 0x80 ||| ((n >>> 12) &&& 0x3F),
     0x80 ||| ((n >>> 6) &&& 0x3F), 0x80 ||| (n &&& 0x3F)]

/-- UTF-8 bytes of a string. -/
def utf8Bytes (s : Str) : List Nat := (s.map utf8Char).flatten

/-! ## Blocklist config parsing (`Downloader::parse_config`) and the
config hash / fingerprint (`src/rust-worker/src/processor.rs`) -/

/-- Valid scheme characters (model of the url crate's scheme grammar). -/
def isSchemeChar (c : Char) : Bool :=
  c.isAlphanum || c = '+' || c = '-' || c = '.'

/-- Modelled behaviour of the external `url` crate for the URLs this
worker handles: `scheme://host...` with a nonempty alphabetic-led scheme
and a nonempty host; the host is what `host_str` returns, lowercased. -/
def urlHostOf (s : Str) : Option Str :=
  let scheme := s.takeWhile fun c => c ≠ ':'
  let rest := s.dropWhile fun c => c ≠ ':'
  if scheme ≠ [] ∧ (∀ x ∈ scheme, isSchemeChar x = true) ∧
      (scheme.head?.map Char.isAlpha).getD false = true ∧
      startsWith [':', '/', '/'] rest then
    let host := (rest.drop 3).takeWhile fun c => c ∉ ['/', '?', '#', ':']
    if host = [] then none else some (lowerStr host)
  else none

/-- Model of `url::Url::parse(url).is_err()` for the subset above. -/
def urlParseOk (s : Str) : Bool := (urlHostOf s).isSome

/-- `Downloader::parse_config`: line-oriented, `#`-comments, split on `|`
into url/name/category, URL-validity check, first-occurrence
deduplication by URL, name defaulting to the URL host. -/
def parseConfig (content : Str) : List SourceM :=
  ((linesOf content).foldl
    (fun (acc : List SourceM × List Str) rawLine =>
      let line := trimStr rawLine
      if line = [] ∨ line.head? = some '#' then acc
      else
        let parts := line.splitOn '|'
        let url := trimStr (parts.getD 0 [])
        if urlParseOk url = false then acc
        else if acc.2.contains url then acc
        else
          let name := if 1 < parts.length then trimStr (parts.getD 1 [])
                      else (urlHostOf url).getD (str "Unknown")
          let category := if 2 < parts.length then some (trimStr (parts.getD 2 []))
                          else none
          (acc.1 ++ [⟨name, url, category⟩], acc.2 ++ [url]))
    ([], [])).1

/-- Byte-lexicographic `≤` on strings (`str::cmp`; ASCII-faithful). -/
def lexLe : Str → Str → Bool
  | [], _ => true
  | _ :: _, [] => false
  | a :: as, b :: bs => if a < b then true else if b < a then false else lexLe as bs

/-- `str::trim_end_matches('/')`. -/
def trimEndSlashes (s : Str) : Str :=
  (s.reverse.dropWhile fun c => c = '/').reverse

/-- The normalized `url|name|category` line of the fingerprint. -/
def normalizeSource (s : SourceM) : Str :=
  trimEndSlashes (lowerStr s.url) ++ '|' :: (lowerStr s.name ++ '|' :: lowerStr (s.category.getD []))

/-- `JobProcessor::compute_config_hash`:
SHA-256 of `blocklists ‖ "\n---SEPARATOR---\n" ‖ whitelist`. -/
def computeConfigHash (blocklists whitelist : Str) : Str :=
  sha256hex (utf8Bytes (blocklists ++ str "\n---SEPARATOR---\n" ++ whitelist))

/-- Modelled from the spec: `WhitelistManager::patterns_as_strings` is
called by `compute_config_fingerprint` but its definition is missing from
`src/` (the `whitelist.rs` present has only `all_patterns`); §4.7 of the
spec says the fingerprint uses "the whitelist's parsed pattern list in the
order produced by §4.5, one per line" — the original pattern texts in
parse order. -/
def patternsAsStrings (m : WhitelistManager) : List Str :=
  m.allPatterns.map fun p => p.original

/-- The comparison `|a, b| a.url.cmp(&b.url)` used by the fingerprint sort. -/
def urlLe (s t : SourceM) : Bool := lexLe s.url t.url

/-- `JobProcessor::compute_config_fingerprint`: sources sorted by raw URL,
rendered as lowercased `url|name|category` lines with trailing slashes
trimmed, then `\n---\n`, then the whitelist pattern list. -/
def computeConfigFingerprint (blocklists whitelist : Str) : Str :=
  sha256hex (utf8Bytes
    (joinWith [ '\n' ] ((isort urlLe (parseConfig blocklists)).map normalizeSource)
      ++ str "\n---\n"
      ++ joinWith [ '\n' ] (patternsAsStrings (fromContent whitelist))))

/-! ## Lemmas about `lexLe` and `isort` -/

/-- `lexLe` is total. -/
theorem lexLe_total : ∀ a b : Str, lexLe a b = true ∨ lexLe b a = true
  | [], _ => Or.inl rfl
  | _ :: _, [] => Or.inr rfl
  | x :: xs, y :: ys => by
    rcases lt_trichotomy x y with h | h | h
    · left; simp [lexLe, h]
    · subst h
      rcases lexLe_total xs ys with h | h
      · left; simp [lexLe, lt_irrefl, h]
      · right; simp [lexLe, lt_irrefl, h]
    · right; simp [lexLe, h]

/-- `lexLe` is transitive. -/
theorem lexLe_trans : ∀ a b c : Str,
    lexLe a b = true → lexLe b c = true → lexLe a c = true
  | [], _, _, _, _ => rfl
  | _ :: _, [], _, h1, _ => by simp [lexLe] at h1
  | _ :: _, _ :: _, [], _, h2 => by simp [lexLe] at h2
  | x :: xs, y :: ys, z :: zs, h1, h2 => by
    rcases lt_trichotomy x y with hxy | hxy | hxy
    · rcases lt_trichotomy y z with hyz | hyz | hyz
      · simp [lexLe, lt_trans hxy hyz]
      · subst hyz; simp [lexLe, hxy]
      · simp [lexLe, hyz, lt_asymm hyz] at h2
    · subst hxy
      rcases lt_trichotomy x z with hxz | hxz | hxz
      · simp [lexLe, hxz]
      · subst hxz
        simp [lexLe, lt_irrefl] at h1 h2 ⊢
        exact lexLe_trans xs ys zs h1 h2
      · simp [lexLe, hxz, lt_asymm hxz] at h2
    · simp [lexLe, hxy, lt_asymm hxy] at h1

/-- `lexLe` is antisymmetric. -/
theorem lexLe_antisymm : ∀ a b : Str, lexLe a b = true → lexLe b a = true → a = b
  | [], [], _, _ => rfl
  | [], _ :: _, _, h2 => by simp [lexLe] at h2
  | _ :: _, [], h1, _ => by simp [lexLe] at h1
  | x :: xs, y :: ys, h1, h2 => by
    rcases lt_trichotomy x y with h | h | h
    · simp [lexLe, h, lt_asymm h] at h2
    · subst h
      simp [lexLe, lt_irrefl] at h1 h2
      rw [lexLe_antisymm xs ys h1 h2]
    · simp [lexLe, h, lt_asymm h] at h1

/-- `insertSorted` permutes a cons. -/
theorem insertSorted_perm (le : α → α → Bool) (x : α) :
    ∀ l : List α, (insertSorted le x l).Perm (x :: l)
  | [] => .refl _
  | y :: ys => by
    simp only [insertSorted]
    by_cases h : le x y = true
    · rw [if_pos h]
    · rw [if_neg h]
      exact ((insertSorted_perm le x ys).cons y).trans (List.Perm.swap x y ys)

/-- `isort` is a permutation. -/
theorem isort_perm (le : α → α → Bool) : ∀ l : List α, (isort le l).Perm l
  | [] => .refl _
  | x :: xs => by
    simp only [isort, List.foldr]
    exact (insertSorted_perm le x _).trans ((isort_perm le xs).cons x)

/-- Inserting into a sorted list keeps it sorted, for a total transitive
comparison. -/
theorem insertSorted_pairwise (le : α → α → Bool)
    (htot : ∀ a b, le a b = true ∨ le b a = true)
    (htrans : ∀ a b c, le a b = true → le b c = true → le a c = true)
    (x : α) :
    ∀ l : List α, l.Pairwise (fun a b => le a b = true) →
      (insertSorted le x l).Pairwise (fun a b => le a b = true)
  | [], _ => by simp [insertSorted]
  | y :: ys, h => by
    rw [List.pairwise_cons] at h
    simp only [insertSorted]
    by_cases hxy : le x y = true
    · rw [if_pos hxy]
      refine List.Pairwise.cons ?_ (List.Pairwise.cons h.1 h.2)
      intro a ha
      rcases List.mem_cons.mp ha with rfl | ha
      · exact hxy
      · exact htrans x y a hxy (h.1 a ha)
    · rw [if_neg hxy]
      have hyx : le y x = true := (htot x y).resolve_left hxy
      refine List.Pairwise.cons ?_ (insertSorted_pairwise le htot htrans x ys h.2)
      intro a ha
      rcases List.mem_cons.mp ((insertSorted_perm le x ys).mem_iff.mp ha) with rfl | ha2
      · exact hyx
      · exact h.1 a ha2

/-- `isort` sorts, for a total transitive comparison. -/
theorem isort_pairwise (le : α → α → Bool)
    (htot : ∀ a b, le a b = true ∨ le b a = true)
    (htrans : ∀ a b c, le a b = true → le b c = true → le a c = true) :
    ∀ l : List α, (isort le l).Pairwise (fun a b => le a b = true)
  | [] => .nil
  | x :: xs => by
    simp only [isort, List.foldr]
    exact insertSorted_pairwise le htot htrans x _ (isort_pairwise le htot htrans xs)

/-- Two sorted permutations of each other are equal, provided the order
relation is antisymmetric on their members. -/
theorem sortedPermEq {R : α → α → Prop} :
    ∀ (l1 l2 : List α), l1.Perm l2 → l1.Pairwise R → l2.Pairwise R →
      (∀ a ∈ l1, ∀ b ∈ l1, R a b → R b a → a = b) → l1 = l2
  | [], l2, hp, _, _, _ => by rw [hp.symm.eq_nil]
  | x :: xs, [], hp, _, _, _ => absurd hp.eq_nil (by simp)
  | x :: xs, y :: ys, hp, h1, h2, hanti => by
    have hy : y ∈ x :: xs := hp.mem_iff.mpr (List.mem_cons_self y ys)
    have hxy : x = y := by
      rcases List.mem_cons.mp hy with h | h
      · exact h.symm
      · have hRxy : R x y := (List.pairwise_cons.mp h1).1 y h
        rcases List.mem_cons.mp (hp.mem_iff.mp (List.mem_cons_self x xs)) with h' | h'
        · exact h'
        · have hRyx : R y x := (List.pairwise_cons.mp h2).1 x h'
          exact hanti x (List.mem_cons_self x xs) y hy hRxy hRyx
    subst hxy
    rw [sortedPermEq xs ys hp.cons_inv (List.pairwise_cons.mp h1).2
      (List.pairwise_cons.mp h2).2
      (fun a ha b hb => hanti a (List.mem_cons_of_mem x ha) b (List.mem_cons_of_mem x hb))]

/-- `insertSorted` respects `Forall₂` when the relation determines the
comparison. -/
theorem insertSorted_forall₂ {R : α → α → Prop} (le : α → α → Bool)
    (hc : ∀ a b a' b', R a a' → R b b' → le a b = le a' b')
    {x y : α} (hxy : R x y) :
    ∀ (l1 l2 : List α), List.Forall₂ R l1 l2 →
      List.Forall₂ R (insertSorted le x l1) (insertSorted le y l2)
  | [], [], .nil => .cons hxy .nil
  | a :: as, b :: bs, .cons hab htail => by
    simp only [insertSorted]
    rw [hc x a y b hxy hab]
    by_cases h : le y b = true
    · rw [if_pos h, if_pos h]
      exact .cons hxy (.cons hab htail)
    · rw [if_neg h, if_neg h]
      exact .cons hab (insertSorted_forall₂ le hc hxy as bs htail)

/-- `isort` respects `Forall₂` when the relation determines the
comparison. -/
theorem isort_forall₂ {R : α → α → Prop} (le : α → α → Bool)
    (hc : ∀ a b a' b', R a a' → R b b' → le a b = le a' b') :
    ∀ (l1 l2 : List α), List.Forall₂ R l1 l2 →
      List.Forall₂ R (isort le l1) (isort le l2)
  | [], [], .nil => .nil
  | a :: as, b :: bs, .cons hab htail => by
    simp only [isort, List.foldr]
    exact insertSorted_forall₂ le hc hab _ _ (isort_forall₂ le hc as bs htail)

/-- Mapping a `Forall₂`-respecting function gives equal lists. -/
theorem map_eq_of_forall₂ {R : α → α → Prop} {f : α → β}
    (hf : ∀ a b, R a b → f a = f b) :
    ∀ (l1 l2 : List α), List.Forall₂ R l1 l2 → l1.map f = l2.map f
  | [], [], .nil => rfl
  | a :: as, b :: bs, .cons hab htail => by
    simp [hf a b hab, map_eq_of_forall₂ hf as bs htail]

/-- Sources equal up to the character case of name and category
(identical URLs). -/
def caseEquiv (s t : SourceM) : Prop :=
  s.url = t.url ∧ lowerStr s.name = lowerStr t.name ∧
    lowerStr (s.category.getD []) = lowerStr (t.category.getD [])

instance (s t : SourceM) : Decidable (caseEquiv s t) :=
  inferInstanceAs (Decidable (_ ∧ _ ∧ _))

/-- `normalizeSource` is invariant under `caseEquiv`. -/
theorem normalizeSource_congr {s t : SourceM} (h : caseEquiv s t) :
    normalizeSource s = normalizeSource t := by
  obtain ⟨h1, h2, h3⟩ := h
  simp [normalizeSource, h1, h2, h3]

/-- C6 counterexample: two blocklist configurations that differ only by
the presence of a trailing slash on one source URL produce different
fingerprints — the raw (untrimmed) URL takes part in first-occurrence
deduplication, so `http://a` followed by `http://a/` parses to two
sources while `http://a` twice parses to one. -/
theorem trailing_slash_changes_fingerprint :
    computeConfigFingerprint (str "http://a\nhttp://a/") (str "")
      ≠ computeConfigFingerprint (str "http://a\nhttp://a") (str "") := by
  decide

/-- C6 (amended): the fingerprint is stable under reordering of the parsed
sources (hence reordering source lines and comment changes) and under case
changes of a source's display name or category, as long as the raw source
URLs themselves are unchanged and pairwise distinct; it is not stable
under trailing-slash changes to a URL, which alter deduplication and sort
order. -/
theorem config_fingerprint_stable (b1 b2 w : Str) (l : List SourceM)
    (hperm : (parseConfig b1).Perm l)
    (hequiv : List.Forall₂ caseEquiv l (parseConfig b2))
    (hnodup : ((parseConfig b1).map fun s => s.url).Nodup) :
    computeConfigFingerprint b1 w = computeConfigFingerprint b2 w := by
  have htot : ∀ a b : SourceM, urlLe a b = true ∨ urlLe b a = true :=
    fun a b => lexLe_total a.url b.url
  have htrans : ∀ a b c : SourceM,
      urlLe a b = true → urlLe b c = true → urlLe a c = true :=
    fun a b c => lexLe_trans a.url b.url c.url
  have hanti : ∀ a ∈ isort urlLe (parseConfig b1),
      ∀ b ∈ isort urlLe (parseConfig b1),
      urlLe a b = true → urlLe b a = true → a = b := by
    intro a ha b hb hab hba
    have ha' := (isort_perm urlLe (parseConfig b1)).mem_iff.mp ha
    have hb' := (isort_perm urlLe (parseConfig b1)).mem_iff.mp hb
    exact List.inj_on_of_nodup_map hnodup ha' hb'
      (lexLe_antisymm a.url b.url hab hba)
  have hs1 : isort urlLe (parseConfig b1) = isort urlLe l :=
    sortedPermEq _ _
      (((isort_perm urlLe (parseConfig b1)).trans hperm).trans
        (isort_perm urlLe l).symm)
      (isort_pairwise urlLe htot htrans _) (isort_pairwise urlLe htot htrans _)
      hanti
  have hc : ∀ a b a' b' : SourceM,
      caseEquiv a a' → caseEquiv b b' → urlLe a b = urlLe a' b' := by
    intro a b a' b' h1 h2
    unfold urlLe
    rw [h1.1, h2.1]
  have hmap : (isort urlLe l).map normalizeSource
      = (isort urlLe (parseConfig b2)).map normalizeSource :=
    map_eq_of_forall₂ (fun a b h => normalizeSource_congr h) _ _
      (isort_forall₂ urlLe hc _ _ hequiv)
  unfold computeConfigFingerprint
  rw [hs1, hmap]

/-- The amended fingerprint stability realized on a concrete pair:
reordered source lines, a changed comment and case-changed name/category
give equal fingerprints. -/
theorem config_fingerprint_stable_witness :
    (parseConfig (str "http://b.com|Name|Cat\nhttp://a.com")).Perm
        [⟨str "a.com", str "http://a.com", none⟩,
         ⟨str "Name", str "http://b.com", some (str "Cat")⟩]
    ∧ List.Forall₂ caseEquiv
        [⟨str "a.com", str "http://a.com", none⟩,
         ⟨str "Name", str "http://b.com", some (str "Cat")⟩]
        (parseConfig (str "# hi\nhttp://a.com\nhttp://b.com|NAME|cat"))
    ∧ ((parseConfig (str "http://b.com|Name|Cat\nhttp://a.com")).map
        fun s => s.url).Nodup
    ∧ computeConfigFingerprint (str "http://b.com|Name|Cat\nhttp://a.com")
        (str "x.com")
      = computeConfigFingerprint (str "# hi\nhttp://a.com\nhttp://b.com|NAME|cat")
        (str "x.com") :=
  ⟨by decide, by decide, by decide,
    config_fingerprint_stable (str "http://b.com|Name|Cat\nhttp://a.com")
      (str "# hi\nhttp://a.com\nhttp://b.com|NAME|cat") (str "x.com")
      [⟨str "a.com", str "http://a.com", none⟩,
       ⟨str "Name", str "http://b.com", some (str "Cat")⟩]
      (by decide) (by decide) (by decide)⟩

/-! ## `JobProcessor::process_job`, steps 0–2
(`src/rust-worker/src/processor.rs` together with
`src/rust-worker/src/db/user.rs` and `src/rust-worker/src/db/user_config.rs`) -/

/-- The database responses `process_job` consults in steps 0–2 for one
job's user: the results of `get_blocklists`, `get_whitelist`, the
users-collection config-hash lookup for a non-default user
(`find_one` + `stats.config_hash`), and `check_all_cached`. -/
structure JobEnv where
  blocklists : Except Str Str
  whitelist : Except Str Str
  userDocHash : Except Str (Option Str)
  allCached : Bool
deriving Repr

/-- `UserRepository::get_config_hash`: the reserved `__default__` user
short-circuits to `Ok(None)` before any database access. -/
def getConfigHash (username : Str) (env : JobEnv) : Except Str (Option Str) :=
  if username = str "__default__" then .ok none else env.userDocHash

/-- How steps 0–2 of `process_job` leave the job: failed with errors,
skipped with a reason, or proceeding into the pipeline with the loaded
config and parsed sources. -/
inductive StepOutcome where
  | failed (errors : List Str)
  | skippedStep (reason : Str)
  | proceeded (blocklists whitelist : Str) (sources : List SourceM)
deriving DecidableEq, Repr

/-- The skip reason used by the no-change optimization. -/
def noChangesMsg : Str :=
  str "No changes detected since last build. All sources are cached and configuration unchanged."

/-- Steps 0–2 of `JobProcessor::process_job`: load blocklists (failure
fails the job), load whitelist (`unwrap_or_default`), parse sources
(empty fails the job), then skip iff the stored config hash matches the
current one and every source is cached. -/
def processJobStep02 (username : Str) (env : JobEnv) : StepOutcome :=
  match env.blocklists with
  | .error e => .failed [str "Failed to load config: " ++ e]
  | .ok configContent =>
    let whitelistContent := match env.whitelist with
      | .ok w => w
      | .error _ => []
    let currentHash := computeConfigHash configContent whitelistContent
    let sources := parseConfig configContent
    if sources = [] then .failed [str "No valid sources in config"]
    else
      match getConfigHash username env with
      | .ok (some storedHash) =>
        if storedHash = currentHash then
          if env.allCached then .skippedStep noChangesMsg
          else .proceeded configContent whitelistContent sources
        else .proceeded configContent whitelistContent sources
      | _ => .proceeded configContent whitelistContent sources

/-- C9 counterexample: a job whose whitelist lookup fails is not marked
failed — `get_whitelist(...).unwrap_or_default()` silently replaces the
error with the empty string and processing proceeds. -/
theorem whitelist_error_does_not_fail_job :
    (JobEnv.mk (.ok (str "http://a.com")) (.error (str "db down")) (.ok none)
        false).whitelist = .error (str "db down")
    ∧ processJobStep02 (str "u")
        (JobEnv.mk (.ok (str "http://a.com")) (.error (str "db down")) (.ok none)
          false)
      = .proceeded (str "http://a.com") []
          [⟨str "a.com", str "http://a.com", none⟩] := by
  exact ⟨rfl, by decide⟩

/-- C9 (amended): in step 0, only the blocklists lookup can fail the job —
a failing blocklists fetch marks the job failed with
`"Failed to load config: <error>"` and stops; a failing whitelist fetch is
swallowed by `unwrap_or_default()` and the job behaves exactly as if the
whitelist were the empty string. -/
theorem config_load_failure_handling (username : Str) (env : JobEnv) :
    (∀ e, env.blocklists = .error e →
      processJobStep02 username env
        = .failed [str "Failed to load config: " ++ e])
    ∧ (∀ e, env.whitelist = .error e →
      processJobStep02 username env
        = processJobStep02 username
            ⟨env.blocklists, .ok [], env.userDocHash, env.allCached⟩) := by
  constructor
  · intro e he
    unfold processJobStep02
    rw [he]
  · intro e he
    obtain ⟨b, wl, uh, ac⟩ := env
    have he' : wl = Except.error e := he
    subst he'
    cases b with
    | error e' => rfl
    | ok c => rfl

/-- The amended step-0 behaviour at concrete inputs: a blocklists error
fails the job with the wrapped message; a whitelist error is equivalent
to an empty whitelist. -/
theorem config_load_failure_handling_witness :
    processJobStep02 (str "u")
        (JobEnv.mk (.error (str "boom")) (.ok (str "w")) (.ok none) false)
      = .failed [str "Failed to load config: " ++ str "boom"]
    ∧ processJobStep02 (str "u")
        (JobEnv.mk (.ok (str "http://a.com")) (.error (str "boom")) (.ok none)
          false)
      = processJobStep02 (str "u")
          (JobEnv.mk (.ok (str "http://a.com")) (.ok []) (.ok none) false) :=
  ⟨(config_load_failure_handling (str "u")
      (JobEnv.mk (.error (str "boom")) (.ok (str "w")) (.ok none) false)).1
      (str "boom") rfl,
   (config_load_failure_handling (str "u")
      (JobEnv.mk (.ok (str "http://a.com")) (.error (str "boom")) (.ok none)
        false)).2 (str "boom") rfl⟩

/-- C10: a `__default__` job is never skipped by the no-change
optimization: `get_config_hash` returns `Ok(None)` for `__default__`
whatever the database holds, so the stored-hash gate never matches and
steps 0–2 never produce a skipped outcome for `__default__`, for any
database responses. -/
theorem default_user_never_skipped (env : JobEnv) :
    getConfigHash (str "__default__") env = .ok none
    ∧ ∀ reason, processJobStep02 (str "__default__") env ≠ .skippedStep reason := by
  have hg : getConfigHash (str "__default__") env = .ok none := by
    unfold getConfigHash
    rw [if_pos rfl]
  refine ⟨hg, ?_⟩
  intro reason h
  cases hb : env.blocklists with
  | error e => simp [processJobStep02, hb] at h
  | ok c =>
    by_cases hs : parseConfig c = []
    · simp [processJobStep02, hb, hg, hs] at h
    · simp [processJobStep02, hb, hg, hs] at h

/-- `default_user_never_skipped` applied at a database state whose stored
document hash matches the current config hash and whose cache is warm. -/
theorem default_user_never_skipped_witness :
    processJobStep02 (str "__default__")
        (JobEnv.mk (.ok (str "http://a.com")) (.ok [])
          (.ok (some (computeConfigHash (str "http://a.com") []))) true)
      ≠ .skippedStep noChangesMsg :=
  (default_user_never_skipped
    (JobEnv.mk (.ok (str "http://a.com")) (.ok [])
      (.ok (some (computeConfigHash (str "http://a.com") []))) true)).2
    noChangesMsg

end BlocklistWorker
